import Mathlib

/-!
Shallow embedding of `src/data_structures.py`: four container classes
(`FifoQueueOfStacks`, `StackOfQueues`, `FifoQueueOfLinkedList`,
`StackOfLinkedList`) and proofs of the specified properties.

Modelling conventions:
* A Python `list` used as a stack is a Lean `List` with `append` adding at
  the END and `pop()` removing from the END (exactly Python's semantics).
* A Python `queue.Queue` is a Lean `List` with `put` adding at the END and
  `get` removing from the FRONT.
* The two linked-list classes mutate shared `Node` objects, so they are
  embedded with an explicit heap: a `List` of node records addressed by
  index (`Node(...)` allocation appends a fresh record); attribute writes
  are functional updates at an index.  Python `is`/`==` identity of nodes
  becomes index equality.
* An operation that can raise returns `Except Err _` TOGETHER with the
  post-state, so that a raise happening after mutations would be captured
  faithfully.  The error kinds mirror what the Python code actually raises:
  `list.pop()` on an empty list raises `IndexError`;
  `Queue.get_nowait()` on an empty queue raises `queue.Empty`;
  the linked-list classes execute `raise Empty(...)` where the name
  `Empty` is NOT imported (the file only does `from queue import Queue`),
  so at runtime the lookup of `Empty` raises `NameError`.
  `attributeError` models dereferencing `None` (unreachable from `init`).
-/

inductive Err : Type where
  | indexError : Err
  | queueEmpty : Err
  | nameError : Err
  | attributeError : Err
deriving DecidableEq, Repr

/-! ## FifoQueueOfStacks (src/data_structures.py lines 8-54) -/

/-- `list.pop()` of Python: remove and return the LAST element;
`IndexError` on an empty list. -/
def pyListPop {α : Type} (l : List α) : Except Err α × List α :=
  match l.getLast? with
  | some x => (Except.ok x, l.dropLast)
  | none => (Except.error Err.indexError, l)

structure FifoQueueOfStacks (α : Type) where
  input_stack : List α
  output_stack : List α
deriving DecidableEq, Repr

namespace FifoQueueOfStacks

/-- `__init__`: both stacks empty. -/
def init (α : Type) : FifoQueueOfStacks α := ⟨[], []⟩

/-- `enqueue`: `self.input_stack.append(el)`. -/
def enqueue {α : Type} (s : FifoQueueOfStacks α) (el : α) : FifoQueueOfStacks α :=
  { s with input_stack := s.input_stack ++ [el] }

/-- The `while len(self.input_stack) > 0:` loop of `dequeue`:
`self.output_stack.append(self.input_stack.pop())`. -/
def drainLoop {α : Type} : List α → List α → List α × List α
  | [], out => ([], out)
  | x :: rest, out =>
    drainLoop (x :: rest).dropLast
      (out ++ [(x :: rest).getLast (List.cons_ne_nil x rest)])
termination_by inp _ => inp.length
decreasing_by
  simp only [List.length_dropLast, List.length_cons]
  omega

/-- `dequeue`: pop from `output_stack` if non-empty, else drain
`input_stack` into `output_stack` and pop. -/
def dequeue {α : Type} (s : FifoQueueOfStacks α) :
    Except Err α × FifoQueueOfStacks α :=
  if s.output_stack.length > 0 then
    let p := pyListPop s.output_stack
    (p.1, ⟨s.input_stack, p.2⟩)
  else
    let d := drainLoop s.input_stack s.output_stack
    let p := pyListPop d.2
    (p.1, ⟨d.1, p.2⟩)

/-- `size`: `len(self.input_stack) + len(self.output_stack)`. -/
def size {α : Type} (s : FifoQueueOfStacks α) : Nat :=
  s.input_stack.length + s.output_stack.length

end FifoQueueOfStacks

/-! ## StackOfQueues (src/data_structures.py lines 57-100) -/

structure StackOfQueues (α : Type) where
  input_queue : List α
  output_queue : List α
deriving DecidableEq, Repr

namespace StackOfQueues

/-- `__init__`: both queues empty. -/
def init (α : Type) : StackOfQueues α := ⟨[], []⟩

/-- `push`: `self.input_queue.put(el)`. -/
def push {α : Type} (s : StackOfQueues α) (el : α) : StackOfQueues α :=
  { s with input_queue := s.input_queue ++ [el] }

/-- First loop of `pop`: `while self.input_queue.qsize() > 1:
self.output_queue.put(self.input_queue.get())`. -/
def popLoop1 {α : Type} : List α → List α → List α × List α
  | x :: y :: rest, out => popLoop1 (y :: rest) (out ++ [x])
  | inp, out => (inp, out)

/-- Second loop of `pop`: `while not self.output_queue.empty():
self.input_queue.put(self.output_queue.get())`. -/
def popLoop2 {α : Type} : List α → List α → List α × List α
  | inp, x :: rest => popLoop2 (inp ++ [x]) rest
  | inp, [] => (inp, [])

/-- `pop`: rotate all but the last element into `output_queue`, rotate
everything back, then `self.input_queue.get_nowait()` (raises
`queue.Empty` when empty). -/
def pop {α : Type} (s : StackOfQueues α) : Except Err α × StackOfQueues α :=
  let d1 := popLoop1 s.input_queue s.output_queue
  let d2 := popLoop2 d1.1 d1.2
  match d2.1 with
  | x :: rest => (Except.ok x, ⟨rest, d2.2⟩)
  | [] => (Except.error Err.queueEmpty, ⟨[], d2.2⟩)

/-- `size`: `self.input_queue.qsize() + self.output_queue.qsize()`. -/
def size {α : Type} (s : StackOfQueues α) : Nat :=
  s.input_queue.length + s.output_queue.length

end StackOfQueues

/-! ## FifoQueueOfLinkedList (src/data_structures.py lines 102-173) -/

/-- The inner `Node` class of `FifoQueueOfLinkedList`: a value (Python
`None` for the sentinels, hence `Option`), and `previous`/`next`
references modelled as optional heap indices. -/
structure DLNode (α : Type) where
  value : Option α
  previous : Option Nat
  next : Option Nat
deriving DecidableEq, Repr

/-- State of `FifoQueueOfLinkedList`: the heap of allocated nodes plus the
indices held by the `head` and `tail` attributes. -/
structure FifoQueueOfLinkedList (α : Type) where
  store : List (DLNode α)
  head : Nat
  tail : Nat
deriving DecidableEq, Repr

namespace FifoQueueOfLinkedList

def valueOf {α : Type} (store : List (DLNode α)) (k : Nat) : Option α :=
  match store[k]? with
  | some n => n.value
  | none => none

def prevOf {α : Type} (store : List (DLNode α)) (k : Nat) : Option Nat :=
  match store[k]? with
  | some n => n.previous
  | none => none

def nextOf {α : Type} (store : List (DLNode α)) (k : Nat) : Option Nat :=
  match store[k]? with
  | some n => n.next
  | none => none

def setPrev {α : Type} (store : List (DLNode α)) (k : Nat) (v : Option Nat) :
    List (DLNode α) :=
  match store[k]? with
  | some n => store.set k { n with previous := v }
  | none => store

def setNext {α : Type} (store : List (DLNode α)) (k : Nat) (v : Option Nat) :
    List (DLNode α) :=
  match store[k]? with
  | some n => store.set k { n with next := v }
  | none => store

/-- `__init__`: `self.tail = Node(None, None, None)` (index 0), then
`self.head = Node(None, None, self.tail)` (index 1), then
`self.tail.previous = self.head`. -/
def init (α : Type) : FifoQueueOfLinkedList α :=
  { store := [⟨none, some 1, none⟩, ⟨none, none, some 0⟩]
    head := 1
    tail := 0 }

/-- `enqueue`: `node = Node(el, self.head, self.head.next)`;
`node.next.previous = node`; `self.head.next = node`. -/
def enqueue {α : Type} (q : FifoQueueOfLinkedList α) (el : α) :
    FifoQueueOfLinkedList α :=
  let newIdx := q.store.length
  let hn := nextOf q.store q.head
  let store1 := q.store ++ [⟨some el, some q.head, hn⟩]
  let store2 :=
    match hn with
    | some j => setPrev store1 j (some newIdx)
    | none => store1
  let store3 := setNext store2 q.head (some newIdx)
  { q with store := store3 }

/-- `dequeue`: raise (the unimported name) `Empty` — at runtime a
`NameError` — when `self.tail.previous == self.head`; otherwise read
`self.tail.previous.value`, set `self.tail.previous =
self.tail.previous.previous` and `self.tail.previous.next = self.tail`. -/
def dequeue {α : Type} (q : FifoQueueOfLinkedList α) :
    Except Err (Option α) × FifoQueueOfLinkedList α :=
  match prevOf q.store q.tail with
  | some j =>
    if j = q.head then (Except.error Err.nameError, q)
    else
      let el := valueOf q.store j
      let store1 := setPrev q.store q.tail (prevOf q.store j)
      let store2 :=
        match prevOf store1 q.tail with
        | some k => setNext store1 k (some q.tail)
        | none => store1
      (Except.ok el, { q with store := store2 })
  | none => (Except.error Err.attributeError, q)

/-- The `while current_node.next is not None:` counting loop of `size`,
with fuel (the store size bounds the chain length in reachable states). -/
def sizeLoop {α : Type} (store : List (DLNode α)) : Nat → Nat → Nat
  | 0, _ => 0
  | fuel + 1, k =>
    match nextOf store k with
    | none => 0
    | some j => 1 + sizeLoop store fuel j

/-- `size`: start at `self.head.next` and count nodes whose `next` is not
`None`. -/
def size {α : Type} (q : FifoQueueOfLinkedList α) : Nat :=
  match nextOf q.store q.head with
  | some j => sizeLoop q.store q.store.length j
  | none => 0

end FifoQueueOfLinkedList

/-! ## StackOfLinkedList (src/data_structures.py lines 176-236) -/

/-- The inner `Node` class of `StackOfLinkedList`: a value and a `next`
reference. -/
structure SLNode (α : Type) where
  value : Option α
  next : Option Nat
deriving DecidableEq, Repr

/-- State of `StackOfLinkedList`: the heap of allocated nodes plus the
index held by the `head` attribute. -/
structure StackOfLinkedList (α : Type) where
  store : List (SLNode α)
  head : Nat
deriving DecidableEq, Repr

namespace StackOfLinkedList

def valueOf {α : Type} (store : List (SLNode α)) (k : Nat) : Option α :=
  match store[k]? with
  | some n => n.value
  | none => none

def nextOf {α : Type} (store : List (SLNode α)) (k : Nat) : Option Nat :=
  match store[k]? with
  | some n => n.next
  | none => none

def setNext {α : Type} (store : List (SLNode α)) (k : Nat) (v : Option Nat) :
    List (SLNode α) :=
  match store[k]? with
  | some n => store.set k { n with next := v }
  | none => store

/-- `__init__`: `self.head = Node(None, None)` (index 0). -/
def init (α : Type) : StackOfLinkedList α :=
  { store := [⟨none, none⟩], head := 0 }

/-- `push`: `self.head.next = Node(el, self.head.next)`. -/
def push {α : Type} (s : StackOfLinkedList α) (el : α) : StackOfLinkedList α :=
  let newIdx := s.store.length
  let hn := nextOf s.store s.head
  let store1 := s.store ++ [⟨some el, hn⟩]
  let store2 := setNext store1 s.head (some newIdx)
  { s with store := store2 }

/-- `pop`: raise (the unimported name) `Empty` — at runtime a `NameError`
— when `self.head.next is None`; otherwise read `self.head.next.value`
and set `self.head.next = self.head.next.next`. -/
def pop {α : Type} (s : StackOfLinkedList α) :
    Except Err (Option α) × StackOfLinkedList α :=
  match nextOf s.store s.head with
  | none => (Except.error Err.nameError, s)
  | some j =>
    let el := valueOf s.store j
    let store1 := setNext s.store s.head (nextOf s.store j)
    (Except.ok el, { s with store := store1 })

/-- The counting loop of `size` (fuel-bounded as for the queue). -/
def sizeLoop {α : Type} (store : List (SLNode α)) : Nat → Nat → Nat
  | 0, _ => 0
  | fuel + 1, k =>
    match nextOf store k with
    | none => 0
    | some j => 1 + sizeLoop store fuel j

/-- `size`: start at `self.head` and count nodes whose `next` is not
`None`. -/
def size {α : Type} (s : StackOfLinkedList α) : Nat :=
  sizeLoop s.store s.store.length s.head

end StackOfLinkedList

/-! ## Operation sequences and reference models -/

/-- A queue operation: `enqueue el` or `dequeue`. -/
inductive QOp (α : Type) where
  | enq : α → QOp α
  | deq : QOp α
deriving DecidableEq, Repr

/-- A stack operation: `push el` or `pop`. -/
inductive SOp (α : Type) where
  | push : α → SOp α
  | pop : SOp α
deriving DecidableEq, Repr

/-- The value a removal produced: `some` on success, `none` on a raise. -/
def resValue {α : Type} : Except Err α → Option α
  | Except.ok a => some a
  | Except.error _ => none

/-- Same, for the linked-list removals whose payloads are `Option α`. -/
def resValueD {α : Type} : Except Err (Option α) → Option α
  | Except.ok v => v
  | Except.error _ => none

/-- Reference list-based FIFO queue (oldest element first): `enq` appends
at the back, `deq` yields the front (`none` when empty, state unchanged).
Returns the final state and the list of dequeue results. -/
def refQRun {α : Type} : List (QOp α) → List α → List α × List (Option α)
  | [], l => (l, [])
  | QOp.enq a :: rest, l => refQRun rest (l ++ [a])
  | QOp.deq :: rest, l =>
    let r := refQRun rest l.tail
    (r.1, l.head? :: r.2)

/-- Reference list-based stack (newest element first): `push` conses,
`pop` yields the head (`none` when empty, state unchanged). -/
def refSRun {α : Type} : List (SOp α) → List α → List α × List (Option α)
  | [], l => (l, [])
  | SOp.push a :: rest, l => refSRun rest (a :: l)
  | SOp.pop :: rest, l =>
    let r := refSRun rest l.tail
    (r.1, l.head? :: r.2)

/-- `validQOps ops n = true` iff, starting from `n` stored elements, every
`deq` in `ops` happens while the queue is non-empty. -/
def validQOps {α : Type} : List (QOp α) → Nat → Bool
  | [], _ => true
  | QOp.enq _ :: rest, n => validQOps rest (n + 1)
  | QOp.deq :: rest, n => decide (0 < n) && validQOps rest (n - 1)

/-- `validSOps ops n = true` iff, starting from `n` stored elements, every
`pop` in `ops` happens while the stack is non-empty. -/
def validSOps {α : Type} : List (SOp α) → Nat → Bool
  | [], _ => true
  | SOp.push _ :: rest, n => validSOps rest (n + 1)
  | SOp.pop :: rest, n => decide (0 < n) && validSOps rest (n - 1)

/-- Number of `enq` operations in a sequence. -/
def numEnq {α : Type} : List (QOp α) → Nat
  | [] => 0
  | QOp.enq _ :: rest => numEnq rest + 1
  | QOp.deq :: rest => numEnq rest

/-- Number of `push` operations in a sequence. -/
def numPush {α : Type} : List (SOp α) → Nat
  | [] => 0
  | SOp.push _ :: rest => numPush rest + 1
  | SOp.pop :: rest => numPush rest

/-- Number of successful removals among the recorded results. -/
def numOk {α : Type} (outs : List (Option α)) : Nat :=
  (outs.filterMap id).length

namespace FifoQueueOfStacks

/-- Run a sequence of operations, recording each dequeue's result. -/
def run {α : Type} :
    List (QOp α) → FifoQueueOfStacks α → FifoQueueOfStacks α × List (Option α)
  | [], s => (s, [])
  | QOp.enq a :: rest, s => run rest (enqueue s a)
  | QOp.deq :: rest, s =>
    let d := dequeue s
    let r := run rest d.2
    (r.1, resValue d.1 :: r.2)

/-- The abstract queue contents, oldest first: the `output_stack` top
(its last entry) is the next element out, then deeper `output_stack`
entries, then `input_stack` from bottom to top. -/
def contents {α : Type} (s : FifoQueueOfStacks α) : List α :=
  s.output_stack.reverse ++ s.input_stack

/-- Transcription of the spec's description of the dequeue algorithm
(spec section 4.1 / claim C6): if `output` is non-empty, pop and return
its top, leaving `input` untouched; otherwise move every `input` element
onto `output` — reversing their order exactly once — and pop the new top.
This definition follows the SPEC's words; `dequeue` follows the code. -/
def dequeueSpec {α : Type} (s : FifoQueueOfStacks α) :
    Except Err α × FifoQueueOfStacks α :=
  match s.output_stack with
  | [] =>
    let p := pyListPop s.input_stack.reverse
    (p.1, ⟨[], p.2⟩)
  | _ :: _ =>
    let p := pyListPop s.output_stack
    (p.1, ⟨s.input_stack, p.2⟩)

end FifoQueueOfStacks

namespace StackOfQueues

/-- Run a sequence of operations, recording each pop's result. -/
def run {α : Type} :
    List (SOp α) → StackOfQueues α → StackOfQueues α × List (Option α)
  | [], s => (s, [])
  | SOp.push a :: rest, s => run rest (push s a)
  | SOp.pop :: rest, s =>
    let d := pop s
    let r := run rest d.2
    (r.1, resValue d.1 :: r.2)

/-- Representation invariant relating a `StackOfQueues` state to the
abstract stack `l` (newest first): the output queue is empty and the
input queue holds the live elements in push order (oldest first). -/
def Models {α : Type} (s : StackOfQueues α) (l : List α) : Prop :=
  s.output_queue = [] ∧ s.input_queue = l.reverse

end StackOfQueues

/-- Follow a pointer function from `k`, recording each node reached,
stopping on `none` or when the fuel runs out. -/
def followLinks (nxt : Nat → Option Nat) : Nat → Nat → List Nat
  | 0, _ => []
  | fuel + 1, k =>
    match nxt k with
    | none => []
    | some j => j :: followLinks nxt fuel j

/-- `path nxt k l`: following `nxt` from `k` visits exactly the nodes of
`l` and then stops on `none`. -/
def path (nxt : Nat → Option Nat) : Nat → List Nat → Prop
  | k, [] => nxt k = none
  | k, j :: rest => nxt k = some j ∧ path nxt j rest

namespace FifoQueueOfLinkedList

/-- Run a sequence of operations, recording each dequeue's result. -/
def run {α : Type} :
    List (QOp α) → FifoQueueOfLinkedList α →
      FifoQueueOfLinkedList α × List (Option α)
  | [], q => (q, [])
  | QOp.enq a :: rest, q => run rest (enqueue q a)
  | QOp.deq :: rest, q =>
    let d := dequeue q
    let r := run rest d.2
    (r.1, resValueD d.1 :: r.2)

/-- Adjacency in the doubly-linked chain: `a.next` is `b` and
`b.previous` is `a`. -/
def linked {α : Type} (store : List (DLNode α)) (a b : Nat) : Prop :=
  nextOf store a = some b ∧ prevOf store b = some a

/-- Representation invariant: some list `is` of live-node indices (newest
first) forms a doubly-linked chain from the head sentinel to the tail
sentinel, all indices are distinct and in bounds, the live values are
`vs` (newest first), and the sentinels carry no payload and terminate the
chain in both directions. -/
def Models {α : Type} (q : FifoQueueOfLinkedList α) (vs : List α) : Prop :=
  ∃ is : List Nat,
    List.Chain' (linked q.store) (q.head :: is ++ [q.tail]) ∧
    (q.head :: is ++ [q.tail]).Nodup ∧
    (∀ i ∈ q.head :: is ++ [q.tail], i < q.store.length) ∧
    is.map (valueOf q.store) = vs.map some ∧
    valueOf q.store q.head = none ∧
    valueOf q.store q.tail = none ∧
    prevOf q.store q.head = none ∧
    nextOf q.store q.tail = none

/-- The nodes visited traversing forward from the head sentinel via
`next` links (the store size bounds the traversal). -/
def forwardNodes {α : Type} (q : FifoQueueOfLinkedList α) : List Nat :=
  q.head :: followLinks (FifoQueueOfLinkedList.nextOf q.store) q.store.length q.head

/-- The nodes visited traversing backward from the tail sentinel via
`previous` links. -/
def backwardNodes {α : Type} (q : FifoQueueOfLinkedList α) : List Nat :=
  q.tail :: followLinks (FifoQueueOfLinkedList.prevOf q.store) q.store.length q.tail

/-- Double consistency of the chain (claim C5): the forward traversal is
the reverse of the backward traversal, and every adjacent pair of the
forward traversal is linked in both directions. -/
def consistent {α : Type} (q : FifoQueueOfLinkedList α) : Prop :=
  forwardNodes q = (backwardNodes q).reverse ∧
  List.Chain' (linked q.store) (forwardNodes q)

end FifoQueueOfLinkedList

namespace StackOfLinkedList

/-- Run a sequence of operations, recording each pop's result. -/
def run {α : Type} :
    List (SOp α) → StackOfLinkedList α → StackOfLinkedList α × List (Option α)
  | [], s => (s, [])
  | SOp.push a :: rest, s => run rest (push s a)
  | SOp.pop :: rest, s =>
    let d := pop s
    let r := run rest d.2
    (r.1, resValueD d.1 :: r.2)

/-- Representation invariant: some list `is` of live-node indices (newest
first) forms a `next`-linked chain starting at the head sentinel, all
indices are distinct and in bounds, the live values are `vs` (newest
first), the sentinel carries no payload, and the last node ends the
chain. -/
def Models {α : Type} (s : StackOfLinkedList α) (vs : List α) : Prop :=
  ∃ is : List Nat,
    List.Chain' (fun a b => nextOf s.store a = some b) (s.head :: is) ∧
    (s.head :: is).Nodup ∧
    (∀ i ∈ s.head :: is, i < s.store.length) ∧
    is.map (valueOf s.store) = vs.map some ∧
    valueOf s.store s.head = none ∧
    nextOf s.store ((s.head :: is).getLast (List.cons_ne_nil s.head is)) = none

end StackOfLinkedList

/-! ## Proofs: the while loops of the buffer-pair containers -/

theorem drainLoop_eq {α : Type} :
    ∀ inp out : List α, FifoQueueOfStacks.drainLoop inp out = ([], out ++ inp.reverse) := by
  intro inp out
  induction inp, out using FifoQueueOfStacks.drainLoop.induct with
  | case1 out => simp [FifoQueueOfStacks.drainLoop]
  | case2 x rest out ih =>
    rw [FifoQueueOfStacks.drainLoop, ih]
    have h : (x :: rest) ≠ [] := List.cons_ne_nil x rest
    conv_rhs => rw [← List.dropLast_append_getLast h]
    simp

theorem popLoop1_eq {α : Type} :
    ∀ (inp : List α) (out : List α) (h : inp ≠ []),
      StackOfQueues.popLoop1 inp out = ([inp.getLast h], out ++ inp.dropLast) := by
  intro inp
  induction inp with
  | nil => intro out h; exact absurd rfl h
  | cons x rest ih =>
    intro out h
    cases rest with
    | nil => simp [StackOfQueues.popLoop1]
    | cons y r =>
      rw [show StackOfQueues.popLoop1 (x :: y :: r) out
            = StackOfQueues.popLoop1 (y :: r) (out ++ [x]) from rfl]
      rw [ih (out ++ [x]) (List.cons_ne_nil y r)]
      simp [List.getLast_cons (List.cons_ne_nil y r)]

theorem popLoop2_eq {α : Type} :
    ∀ (out : List α) (inp : List α),
      StackOfQueues.popLoop2 inp out = (inp ++ out, []) := by
  intro out
  induction out with
  | nil => intro inp; simp [StackOfQueues.popLoop2]
  | cons x rest ih =>
    intro inp
    rw [show StackOfQueues.popLoop2 inp (x :: rest)
          = StackOfQueues.popLoop2 (inp ++ [x]) rest from rfl]
    rw [ih (inp ++ [x])]
    simp

/-! ## Proofs: FifoQueueOfStacks refines the reference queue -/

theorem fqs_contents_enqueue {α : Type} (s : FifoQueueOfStacks α) (el : α) :
    (FifoQueueOfStacks.enqueue s el).contents = s.contents ++ [el] := by
  simp [FifoQueueOfStacks.contents, FifoQueueOfStacks.enqueue]

theorem fqs_contents_nil {α : Type} {s : FifoQueueOfStacks α}
    (h : s.contents = []) : s = ⟨[], []⟩ := by
  cases s with
  | mk inp out =>
    simp only [FifoQueueOfStacks.contents, List.append_eq_nil,
      List.reverse_eq_nil_iff] at h
    simp [h.1, h.2]

theorem fqs_dequeue_of_empty {α : Type} {s : FifoQueueOfStacks α}
    (h : s.contents = []) :
    s.dequeue = (Except.error Err.indexError, s) := by
  rw [fqs_contents_nil h]
  simp [FifoQueueOfStacks.dequeue, drainLoop_eq, pyListPop]

theorem fqs_dequeue_of_cons {α : Type} {s : FifoQueueOfStacks α} {x : α}
    {rest : List α} (h : s.contents = x :: rest) :
    s.dequeue.1 = Except.ok x ∧ s.dequeue.2.contents = rest := by
  cases s with
  | mk inp out =>
    cases hout : out with
    | nil =>
      subst hout
      simp only [FifoQueueOfStacks.contents, List.reverse_nil,
        List.nil_append] at h
      subst h
      simp [FifoQueueOfStacks.dequeue, drainLoop_eq, pyListPop,
        FifoQueueOfStacks.contents]
    | cons o os =>
      subst hout
      have hne : (o :: os) ≠ [] := List.cons_ne_nil o os
      have hrev : (o :: os).reverse
          = (o :: os).getLast hne :: (o :: os).dropLast.reverse := by
        conv_lhs => rw [← List.dropLast_append_getLast hne]
        simp
      rw [FifoQueueOfStacks.contents, hrev] at h
      rw [List.cons_append] at h
      have hx : (o :: os).getLast hne = x := (List.cons.injEq _ _ _ _ ▸ h).1
      have hrest : (o :: os).dropLast.reverse ++ inp = rest :=
        (List.cons.injEq _ _ _ _ ▸ h).2
      have hlen : (o :: os).length > 0 := by simp
      simp only [FifoQueueOfStacks.dequeue, hlen, if_pos, pyListPop,
        List.getLast?_eq_getLast _ hne, FifoQueueOfStacks.contents]
      exact ⟨by rw [hx], by rw [hrest]⟩

theorem fqs_run_sim {α : Type} :
    ∀ (ops : List (QOp α)) (s : FifoQueueOfStacks α),
      (FifoQueueOfStacks.run ops s).2 = (refQRun ops s.contents).2 ∧
      (FifoQueueOfStacks.run ops s).1.contents = (refQRun ops s.contents).1 := by
  intro ops
  induction ops with
  | nil => intro s; simp [FifoQueueOfStacks.run, refQRun]
  | cons op rest ih =>
    intro s
    cases op with
    | enq a =>
      have h := ih (FifoQueueOfStacks.enqueue s a)
      rw [fqs_contents_enqueue] at h
      simpa [FifoQueueOfStacks.run, refQRun] using h
    | deq =>
      cases hc : s.contents with
      | nil =>
        have hde := fqs_dequeue_of_empty hc
        have h := ih s
        rw [hc] at h
        simp only [FifoQueueOfStacks.run, refQRun, hde, hc, resValue]
        simp only [List.head?_nil, List.tail_nil]
        exact ⟨by rw [h.1], h.2⟩
      | cons x xs =>
        obtain ⟨h1, h2⟩ := fqs_dequeue_of_cons hc
        have h := ih s.dequeue.2
        rw [h2] at h
        simp only [FifoQueueOfStacks.run, refQRun, hc]
        simp only [List.head?_cons, List.tail_cons]
        exact ⟨by rw [h1, h.1, resValue], h.2⟩

theorem fqs_size_contents {α : Type} (s : FifoQueueOfStacks α) :
    s.size = s.contents.length := by
  simp [FifoQueueOfStacks.size, FifoQueueOfStacks.contents]
  omega

/-! ## Proofs: StackOfQueues refines the reference stack -/

theorem soq_models_init {α : Type} : (StackOfQueues.init α).Models [] :=
  ⟨rfl, rfl⟩

theorem soq_models_push {α : Type} {s : StackOfQueues α} {l : List α} (el : α)
    (h : s.Models l) : (StackOfQueues.push s el).Models (el :: l) := by
  obtain ⟨h1, h2⟩ := h
  refine ⟨h1, ?_⟩
  simp [StackOfQueues.push, h2]

theorem soq_pop_of_empty {α : Type} {s : StackOfQueues α}
    (h : s.Models []) : s.pop = (Except.error Err.queueEmpty, s) := by
  obtain ⟨h1, h2⟩ := h
  cases s with
  | mk inp out =>
    simp only at h1 h2
    simp only [List.reverse_nil] at h2
    subst h1
    subst h2
    rfl

theorem soq_pop_of_cons {α : Type} {s : StackOfQueues α} {x : α} {l : List α}
    (h : s.Models (x :: l)) : s.pop = (Except.ok x, ⟨l.reverse, []⟩) := by
  obtain ⟨h1, h2⟩ := h
  cases s with
  | mk inp out =>
    simp only at h1 h2
    rw [List.reverse_cons] at h2
    subst h1
    subst h2
    have hne : l.reverse ++ [x] ≠ [] := by simp
    simp only [StackOfQueues.pop, popLoop1_eq _ _ hne, List.dropLast_concat,
      List.nil_append, popLoop2_eq]
    have hlast : (l.reverse ++ [x]).getLast hne = x := by
      have h1 := List.getLast?_concat (a := x) l.reverse
      have h2 := List.getLast?_eq_getLast _ hne
      rw [h1] at h2
      exact (Option.some.injEq _ _ ▸ h2.symm)
    rw [hlast]
    rfl

theorem soq_run_sim {α : Type} :
    ∀ (ops : List (SOp α)) (s : StackOfQueues α) (l : List α), s.Models l →
      (StackOfQueues.run ops s).2 = (refSRun ops l).2 ∧
      (StackOfQueues.run ops s).1.Models (refSRun ops l).1 := by
  intro ops
  induction ops with
  | nil => intro s l h; simpa [StackOfQueues.run, refSRun] using h
  | cons op rest ih =>
    intro s l h
    cases op with
    | push a =>
      have h2 := ih (StackOfQueues.push s a) (a :: l) (soq_models_push a h)
      simpa [StackOfQueues.run, refSRun] using h2
    | pop =>
      cases l with
      | nil =>
        have hp := soq_pop_of_empty h
        have h2 := ih s [] h
        simp only [StackOfQueues.run, refSRun, hp, resValue]
        simp only [List.head?_nil, List.tail_nil]
        exact ⟨by rw [h2.1], h2.2⟩
      | cons x xs =>
        have hp := soq_pop_of_cons h
        have h2 := ih ⟨xs.reverse, []⟩ xs ⟨rfl, by simp⟩
        simp only [StackOfQueues.run, refSRun, hp, resValue]
        simp only [List.head?_cons, List.tail_cons]
        exact ⟨by rw [h2.1], h2.2⟩

theorem soq_size_models {α : Type} {s : StackOfQueues α} {l : List α}
    (h : s.Models l) : s.size = l.length := by
  obtain ⟨h1, h2⟩ := h
  simp [StackOfQueues.size, h1, h2]

/-! ## Proofs: counting inserts and successful removals -/

theorem numOk_cons_some {α : Type} (x : α) (outs : List (Option α)) :
    numOk (some x :: outs) = numOk outs + 1 := by
  simp [numOk, List.filterMap_cons]

theorem numOk_cons_none {α : Type} (outs : List (Option α)) :
    numOk (none :: outs) = numOk outs := by
  simp [numOk, List.filterMap_cons]

theorem refQRun_count {α : Type} :
    ∀ (ops : List (QOp α)) (l : List α),
      (refQRun ops l).1.length + numOk (refQRun ops l).2
        = l.length + numEnq ops := by
  intro ops
  induction ops with
  | nil => intro l; simp [refQRun, numEnq, numOk]
  | cons op rest ih =>
    intro l
    cases op with
    | enq a =>
      have h := ih (l ++ [a])
      simp only [refQRun, numEnq]
      simp only [List.length_append, List.length_cons, List.length_nil] at h
      omega
    | deq =>
      cases l with
      | nil =>
        have h := ih []
        simp only [refQRun, numEnq, List.head?_nil, List.tail_nil,
          numOk_cons_none]
        simpa using h
      | cons y t =>
        have h := ih t
        simp only [refQRun, numEnq, List.head?_cons, List.tail_cons,
          numOk_cons_some, List.length_cons]
        omega

theorem refSRun_count {α : Type} :
    ∀ (ops : List (SOp α)) (l : List α),
      (refSRun ops l).1.length + numOk (refSRun ops l).2
        = l.length + numPush ops := by
  intro ops
  induction ops with
  | nil => intro l; simp [refSRun, numPush, numOk]
  | cons op rest ih =>
    intro l
    cases op with
    | push a =>
      have h := ih (a :: l)
      simp only [refSRun, numPush]
      simp only [List.length_cons] at h
      omega
    | pop =>
      cases l with
      | nil =>
        have h := ih []
        simp only [refSRun, numPush, List.head?_nil, List.tail_nil,
          numOk_cons_none]
        simpa using h
      | cons y t =>
        have h := ih t
        simp only [refSRun, numPush, List.head?_cons, List.tail_cons,
          numOk_cons_some, List.length_cons]
        omega

/-! ## Proofs: heap access lemmas for the doubly-linked queue -/

section DLLHeap

open FifoQueueOfLinkedList

theorem dll_setPrev_length {α : Type} (store : List (DLNode α)) (k : Nat)
    (v : Option Nat) : (setPrev store k v).length = store.length := by
  unfold setPrev
  cases store[k]? <;> simp

theorem dll_setNext_length {α : Type} (store : List (DLNode α)) (k : Nat)
    (v : Option Nat) : (setNext store k v).length = store.length := by
  unfold setNext
  cases store[k]? <;> simp

theorem dll_valueOf_append {α : Type} {store : List (DLNode α)}
    (l : List (DLNode α)) {k : Nat} (h : k < store.length) :
    valueOf (store ++ l) k = valueOf store k := by
  unfold valueOf
  rw [List.getElem?_append_left h]

theorem dll_prevOf_append {α : Type} {store : List (DLNode α)}
    (l : List (DLNode α)) {k : Nat} (h : k < store.length) :
    prevOf (store ++ l) k = prevOf store k := by
  unfold prevOf
  rw [List.getElem?_append_left h]

theorem dll_nextOf_append {α : Type} {store : List (DLNode α)}
    (l : List (DLNode α)) {k : Nat} (h : k < store.length) :
    nextOf (store ++ l) k = nextOf store k := by
  unfold nextOf
  rw [List.getElem?_append_left h]

theorem dll_valueOf_append_new {α : Type} (store : List (DLNode α))
    (n : DLNode α) : valueOf (store ++ [n]) store.length = n.value := by
  unfold valueOf
  simp

theorem dll_prevOf_append_new {α : Type} (store : List (DLNode α))
    (n : DLNode α) : prevOf (store ++ [n]) store.length = n.previous := by
  unfold prevOf
  simp

theorem dll_nextOf_append_new {α : Type} (store : List (DLNode α))
    (n : DLNode α) : nextOf (store ++ [n]) store.length = n.next := by
  unfold nextOf
  simp

theorem dll_valueOf_setPrev {α : Type} (store : List (DLNode α)) (k : Nat)
    (v : Option Nat) (i : Nat) :
    valueOf (setPrev store k v) i = valueOf store i := by
  unfold valueOf setPrev
  cases hk : store[k]? with
  | none => rfl
  | some n =>
    by_cases hik : k = i
    · subst hik
      have hlt : k < store.length :=
        (List.getElem?_eq_some_iff.mp hk).1
      simp [List.getElem?_set_self, hlt, hk]
    · rw [List.getElem?_set_ne hik]

theorem dll_nextOf_setPrev {α : Type} (store : List (DLNode α)) (k : Nat)
    (v : Option Nat) (i : Nat) :
    nextOf (setPrev store k v) i = nextOf store i := by
  unfold nextOf setPrev
  cases hk : store[k]? with
  | none => rfl
  | some n =>
    by_cases hik : k = i
    · subst hik
      have hlt : k < store.length :=
        (List.getElem?_eq_some_iff.mp hk).1
      simp [List.getElem?_set_self, hlt, hk]
    · rw [List.getElem?_set_ne hik]

theorem dll_prevOf_setPrev_ne {α : Type} (store : List (DLNode α)) {k : Nat}
    (v : Option Nat) {i : Nat} (h : k ≠ i) :
    prevOf (setPrev store k v) i = prevOf store i := by
  unfold prevOf setPrev
  cases hk : store[k]? with
  | none => rfl
  | some n => rw [List.getElem?_set_ne h]

theorem dll_prevOf_setPrev_self {α : Type} {store : List (DLNode α)} {k : Nat}
    (v : Option Nat) (h : k < store.length) :
    prevOf (setPrev store k v) k = v := by
  unfold prevOf setPrev
  cases hk : store[k]? with
  | none =>
    rw [List.getElem?_eq_getElem h] at hk
    cases hk
  | some n => simp [List.getElem?_set_self, h]

theorem dll_valueOf_setNext {α : Type} (store : List (DLNode α)) (k : Nat)
    (v : Option Nat) (i : Nat) :
    valueOf (setNext store k v) i = valueOf store i := by
  unfold valueOf setNext
  cases hk : store[k]? with
  | none => rfl
  | some n =>
    by_cases hik : k = i
    · subst hik
      have hlt : k < store.length :=
        (List.getElem?_eq_some_iff.mp hk).1
      simp [List.getElem?_set_self, hlt, hk]
    · rw [List.getElem?_set_ne hik]

theorem dll_prevOf_setNext {α : Type} (store : List (DLNode α)) (k : Nat)
    (v : Option Nat) (i : Nat) :
    prevOf (setNext store k v) i = prevOf store i := by
  unfold prevOf setNext
  cases hk : store[k]? with
  | none => rfl
  | some n =>
    by_cases hik : k = i
    · subst hik
      have hlt : k < store.length :=
        (List.getElem?_eq_some_iff.mp hk).1
      simp [List.getElem?_set_self, hlt, hk]
    · rw [List.getElem?_set_ne hik]

theorem dll_nextOf_setNext_ne {α : Type} (store : List (DLNode α)) {k : Nat}
    (v : Option Nat) {i : Nat} (h : k ≠ i) :
    nextOf (setNext store k v) i = nextOf store i := by
  unfold nextOf setNext
  cases hk : store[k]? with
  | none => rfl
  | some n => rw [List.getElem?_set_ne h]

theorem dll_nextOf_setNext_self {α : Type} {store : List (DLNode α)} {k : Nat}
    (v : Option Nat) (h : k < store.length) :
    nextOf (setNext store k v) k = v := by
  unfold nextOf setNext
  cases hk : store[k]? with
  | none =>
    rw [List.getElem?_eq_getElem h] at hk
    cases hk
  | some n => simp [List.getElem?_set_self, h]

end DLLHeap

/-! ## Proofs: chains, paths and traversals -/

theorem chain'_congr {R S : Nat → Nat → Prop} :
    ∀ {l : List Nat}, (∀ a ∈ l.dropLast, ∀ b ∈ l.tail, R a b → S a b) →
      List.Chain' R l → List.Chain' S l := by
  intro l
  induction l with
  | nil => intro _ _; exact List.chain'_nil
  | cons a t ih =>
    cases t with
    | nil => intro _ _; exact List.chain'_singleton a
    | cons b t2 =>
      intro hcong hch
      rw [List.chain'_cons] at hch
      rw [List.chain'_cons]
      refine ⟨hcong a ?_ b ?_ hch.1, ih ?_ hch.2⟩
      · exact List.mem_cons_self a _
      · exact List.mem_cons_self b _
      · intro x hx y hy hxy
        exact hcong x (List.mem_cons_of_mem a hx) y (List.mem_cons_of_mem b hy) hxy

theorem path_of_chain (nxt : Nat → Option Nat) :
    ∀ (l : List Nat) (k : Nat),
      List.Chain' (fun a b => nxt a = some b) (k :: l) →
      nxt ((k :: l).getLast (List.cons_ne_nil k l)) = none →
      path nxt k l := by
  intro l
  induction l with
  | nil => intro k _ hlast; exact hlast
  | cons j rest ih =>
    intro k hch hlast
    rw [List.chain'_cons] at hch
    refine ⟨hch.1, ih j hch.2 ?_⟩
    rw [← List.getLast_cons (List.cons_ne_nil j rest)]
    exact hlast

theorem followLinks_of_path (nxt : Nat → Option Nat) :
    ∀ (l : List Nat) (k : Nat) (fuel : Nat), path nxt k l → l.length ≤ fuel →
      followLinks nxt fuel k = l := by
  intro l
  induction l with
  | nil =>
    intro k fuel hp _
    cases fuel with
    | zero => rfl
    | succ f =>
      simp only [path] at hp
      simp [followLinks, hp]
  | cons j rest ih =>
    intro k fuel hp hlen
    cases fuel with
    | zero => simp at hlen
    | succ f =>
      simp only [path] at hp
      simp only [followLinks, hp.1]
      rw [ih j f hp.2 (by simp at hlen; omega)]

theorem path_length_eq (nxt : Nat → Option Nat) :
    ∀ (l₁ l₂ : List Nat) (k : Nat), path nxt k l₁ → path nxt k l₂ →
      l₁ = l₂ := by
  intro l₁
  induction l₁ with
  | nil =>
    intro l₂ k h1 h2
    cases l₂ with
    | nil => rfl
    | cons j r =>
      simp only [path] at h1 h2
      rw [h1] at h2
      cases h2.1
  | cons j r ih =>
    intro l₂ k h1 h2
    cases l₂ with
    | nil =>
      simp only [path] at h1 h2
      rw [h2] at h1
      cases h1.1
    | cons j2 r2 =>
      simp only [path] at h1 h2
      have hj : j = j2 := by
        have := h1.1.symm.trans h2.1
        cases this
        rfl
      subst hj
      rw [ih r2 j h1.2 h2.2]

theorem nodup_lt_length_le {L : Nat} :
    ∀ l : List Nat, l.Nodup → (∀ i ∈ l, i < L) → l.length ≤ L := by
  intro l hnd hlt
  have h1 : l.toFinset.card = l.length := List.toFinset_card_of_nodup hnd
  have h2 : l.toFinset ⊆ Finset.range L := by
    intro i hi
    rw [Finset.mem_range]
    exact hlt i (List.mem_toFinset.mp hi)
  have h3 := Finset.card_le_card h2
  rw [Finset.card_range] at h3
  omega

/-! ## Proofs: the doubly-linked queue maintains its representation -/

section DLLStep

open FifoQueueOfLinkedList

theorem dll_models_enqueue {α : Type} {q : FifoQueueOfLinkedList α}
    {vs : List α} (el : α) (h : q.Models vs) :
    (q.enqueue el).Models (el :: vs) := by
  obtain ⟨is, hch, hnd, hbd, hval, hvh, hvt, hph, hnt⟩ := h
  obtain ⟨j, jrest, hje⟩ : ∃ j jrest, is ++ [q.tail] = j :: jrest := by
    cases is with
    | nil => exact ⟨q.tail, [], rfl⟩
    | cons a t => exact ⟨a, t ++ [q.tail], rfl⟩
  simp only [List.cons_append] at hch hnd hbd
  rw [List.nodup_cons] at hnd
  have hndt : (is ++ [q.tail]).Nodup := hnd.2
  have hhd_notin : q.head ∉ is ++ [q.tail] := hnd.1
  have hheadlt : q.head < q.store.length := hbd q.head (List.mem_cons_self _ _)
  have htail_mem : q.tail ∈ is ++ [q.tail] := by simp
  have htaillt : q.tail < q.store.length :=
    hbd q.tail (List.mem_cons_of_mem _ htail_mem)
  have hj_mem : j ∈ is ++ [q.tail] := by
    rw [hje]; exact List.mem_cons_self _ _
  have hjlt : j < q.store.length := hbd j (List.mem_cons_of_mem _ hj_mem)
  have hjne_head : j ≠ q.head := fun he => hhd_notin (he ▸ hj_mem)
  have hch' := hch
  rw [hje, List.chain'_cons] at hch'
  have hne : nextOf q.store q.head = some j := hch'.1.1
  have hch2 : List.Chain' (linked q.store) (j :: jrest) := hch'.2
  have hj_notin_rest : j ∉ jrest := by
    have := hje ▸ hndt
    exact (List.nodup_cons.mp this).1
  have hmem_sub : ∀ i ∈ is ++ [q.tail], i < q.store.length := fun i hi =>
    hbd i (List.mem_cons_of_mem _ hi)
  have henq : q.enqueue el
      = { q with store := (setNext
          (setPrev (q.store ++ [⟨some el, some q.head, some j⟩]) j
            (some q.store.length))
          q.head (some q.store.length)) } := by
    simp only [enqueue, hne]
  rw [henq]
  -- read equations for the updated store
  have hlen1 : (q.store ++ [(⟨some el, some q.head, some j⟩ : DLNode α)]).length
      = q.store.length + 1 := by simp
  have hlen2 : (setPrev (q.store ++ [⟨some el, some q.head, some j⟩]) j
      (some q.store.length)).length = q.store.length + 1 := by
    rw [dll_setPrev_length, hlen1]
  have hlen3 : (setNext (setPrev (q.store ++ [⟨some el, some q.head, some j⟩]) j
      (some q.store.length)) q.head (some q.store.length)).length
      = q.store.length + 1 := by
    rw [dll_setNext_length, hlen2]
  have hval3 : ∀ i, valueOf (setNext (setPrev
      (q.store ++ [⟨some el, some q.head, some j⟩]) j (some q.store.length))
      q.head (some q.store.length)) i
      = valueOf (q.store ++ [⟨some el, some q.head, some j⟩]) i := fun i => by
    rw [dll_valueOf_setNext, dll_valueOf_setPrev]
  have hval3_old : ∀ i, i < q.store.length →
      valueOf (setNext (setPrev
        (q.store ++ [⟨some el, some q.head, some j⟩]) j (some q.store.length))
        q.head (some q.store.length)) i = valueOf q.store i := fun i hi => by
    rw [hval3 i, dll_valueOf_append _ hi]
  have hval3_new : valueOf (setNext (setPrev
      (q.store ++ [⟨some el, some q.head, some j⟩]) j (some q.store.length))
      q.head (some q.store.length)) q.store.length = some el := by
    rw [hval3, dll_valueOf_append_new]
  have hprev3_ne : ∀ i, i ≠ j →
      prevOf (setNext (setPrev
        (q.store ++ [⟨some el, some q.head, some j⟩]) j (some q.store.length))
        q.head (some q.store.length)) i
      = prevOf (q.store ++ [⟨some el, some q.head, some j⟩]) i := fun i hi => by
    rw [dll_prevOf_setNext, dll_prevOf_setPrev_ne _ _ (fun he => hi he.symm)]
  have hprev3_j : prevOf (setNext (setPrev
      (q.store ++ [⟨some el, some q.head, some j⟩]) j (some q.store.length))
      q.head (some q.store.length)) j = some q.store.length := by
    rw [dll_prevOf_setNext, dll_prevOf_setPrev_self _ (by rw [hlen1]; omega)]
  have hnext3_ne : ∀ i, i ≠ q.head →
      nextOf (setNext (setPrev
        (q.store ++ [⟨some el, some q.head, some j⟩]) j (some q.store.length))
        q.head (some q.store.length)) i
      = nextOf (q.store ++ [⟨some el, some q.head, some j⟩]) i := fun i hi => by
    rw [dll_nextOf_setNext_ne _ _ (fun he => hi he.symm), dll_nextOf_setPrev]
  have hnext3_head : nextOf (setNext (setPrev
      (q.store ++ [⟨some el, some q.head, some j⟩]) j (some q.store.length))
      q.head (some q.store.length)) q.head = some q.store.length := by
    rw [dll_nextOf_setNext_self _ (by rw [hlen2]; omega)]
  refine ⟨q.store.length :: is, ?_, ?_, ?_, ?_, ?_, ?_, ?_, ?_⟩
  · -- the chain
    show List.Chain' _ (q.head :: (q.store.length :: is) ++ [q.tail])
    simp only [List.cons_append]
    rw [hje]
    refine List.chain'_cons.mpr ⟨⟨hnext3_head, ?_⟩, List.chain'_cons.mpr
      ⟨⟨?_, ?_⟩, ?_⟩⟩
    · rw [hprev3_ne _ (fun he => absurd (he ▸ hjlt) (lt_irrefl _)),
        dll_prevOf_append_new]
    · rw [hnext3_ne _ (fun he => absurd (he ▸ hheadlt) (lt_irrefl _)),
        dll_nextOf_append_new]
    · exact hprev3_j
    · refine chain'_congr ?_ hch2
      intro a ha b hb hab
      have ha2 : a ∈ j :: jrest := List.dropLast_subset _ ha
      have hb2 : b ∈ j :: jrest := List.mem_cons_of_mem _ hb
      have halt : a < q.store.length := hmem_sub a (hje ▸ ha2)
      have hblt : b < q.store.length := hmem_sub b (hje ▸ hb2)
      have hane : a ≠ q.head := fun he => hhd_notin (he ▸ hje ▸ ha2)
      have hbne : b ≠ j := fun he => hj_notin_rest (he ▸ hb)
      exact ⟨by rw [hnext3_ne _ hane, dll_nextOf_append _ halt]; exact hab.1,
        by rw [hprev3_ne _ hbne, dll_prevOf_append _ hblt]; exact hab.2⟩
  · -- distinctness
    show (q.head :: (q.store.length :: is) ++ [q.tail]).Nodup
    simp only [List.cons_append]
    rw [List.nodup_cons, List.nodup_cons]
    refine ⟨?_, ?_, hndt⟩
    · intro hmem
      rcases List.mem_cons.mp hmem with he | hmem2
      · exact absurd (he ▸ hheadlt) (lt_irrefl _)
      · exact hhd_notin hmem2
    · intro hmem
      exact absurd (hmem_sub _ hmem) (lt_irrefl _)
  · -- bounds
    intro i hi
    rw [hlen3]
    simp only [List.cons_append] at hi
    rcases List.mem_cons.mp hi with he | hi2
    · omega
    · rcases List.mem_cons.mp hi2 with he | hi3
      · omega
      · have := hmem_sub i hi3
        omega
  · -- values
    rw [List.map_cons, List.map_cons, hval3_new]
    congr 1
    rw [← hval]
    refine List.map_congr_left ?_
    intro i hi
    exact hval3_old i (hmem_sub i (List.mem_append_left _ hi))
  · rw [hval3_old _ hheadlt]; exact hvh
  · rw [hval3_old _ htaillt]; exact hvt
  · rw [hprev3_ne _ (fun he => hjne_head he.symm), dll_prevOf_append _ hheadlt]
    exact hph
  · have htne : q.tail ≠ q.head := fun he => hhd_notin (he ▸ htail_mem)
    rw [hnext3_ne _ htne, dll_nextOf_append _ htaillt]
    exact hnt

end DLLStep

section DLLStepDeq

open FifoQueueOfLinkedList

theorem dll_models_dequeue_nil {α : Type} {q : FifoQueueOfLinkedList α}
    (h : q.Models []) : q.dequeue = (Except.error Err.nameError, q) := by
  obtain ⟨is, hch, hnd, hbd, hval, hvh, hvt, hph, hnt⟩ := h
  have his : is = [] := by
    cases is with
    | nil => rfl
    | cons a t => simp at hval
  subst his
  simp only [List.nil_append, List.singleton_append] at hch
  have hlink : linked q.store q.head q.tail := (List.chain'_cons.mp hch).1
  unfold dequeue
  rw [hlink.2]
  simp

theorem dll_models_dequeue_concat {α : Type} {q : FifoQueueOfLinkedList α}
    {vs : List α} {x : α} (h : q.Models (vs ++ [x])) :
    q.dequeue.1 = Except.ok (some x) ∧ q.dequeue.2.Models vs := by
  obtain ⟨is, hch, hnd, hbd, hval, hvh, hvt, hph, hnt⟩ := h
  -- split the index list at its last element (the oldest node)
  obtain ⟨is0, jl, his⟩ : ∃ is0 jl, is = is0 ++ [jl] := by
    rcases List.eq_nil_or_concat is with he | ⟨is0, jl, he⟩
    · rw [he] at hval; simp at hval
    · exact ⟨is0, jl, by rw [he, List.concat_eq_append]⟩
  have hfull : q.head :: is ++ [q.tail]
      = (q.head :: is0) ++ [jl, q.tail] := by
    rw [his]; simp
  rw [hfull] at hch hnd hbd
  -- split the value correspondence
  rw [his, List.map_append, List.map_append] at hval
  have hlen0 : (is0.map (valueOf q.store)).length = (vs.map some).length := by
    have h1 := congrArg List.length hval
    simp at h1
    simp [h1]
  obtain ⟨hval0, hvaljl⟩ := List.append_inj hval hlen0
  simp only [List.map_cons, List.map_nil, List.cons.injEq, and_true] at hvaljl
  -- decompose the chain
  rw [List.chain'_append] at hch
  obtain ⟨hch1, hch2, hlink12⟩ := hch
  have hlinkjt : linked q.store jl q.tail := (List.chain'_cons.mp hch2).1
  have hk_last : (q.head :: is0).getLast? =
      some ((q.head :: is0).getLast (List.cons_ne_nil _ _)) :=
    List.getLast?_eq_getLast _ _
  have hlinkkj : linked q.store ((q.head :: is0).getLast (List.cons_ne_nil _ _)) jl := by
    refine hlink12 _ ?_ jl ?_
    · rw [hk_last]; rfl
    · rfl
  -- distinctness facts
  rw [List.nodup_append] at hnd
  obtain ⟨hnd1, hnd2, hdisj⟩ := hnd
  have hk_mem : ((q.head :: is0).getLast (List.cons_ne_nil _ _)) ∈ q.head :: is0 :=
    List.getLast_mem _
  have hjl_ne_head : jl ≠ q.head := by
    intro he
    exact hdisj (he ▸ List.mem_cons_self _ _) (List.mem_cons_self _ _)
  have hk_ne_tail : ((q.head :: is0).getLast (List.cons_ne_nil _ _)) ≠ q.tail := by
    intro he
    exact hdisj hk_mem (he ▸ List.mem_cons_of_mem _ (List.mem_cons_self _ _))
  have hhead_ne_tail : q.head ≠ q.tail := by
    intro he
    exact hdisj (List.mem_cons_self _ _)
      (he ▸ List.mem_cons_of_mem _ (List.mem_cons_self _ _))
  have htail_notin1 : q.tail ∉ q.head :: is0 := by
    intro hmem
    exact hdisj hmem (List.mem_cons_of_mem _ (List.mem_cons_self _ _))
  -- bounds
  have hheadlt : q.head < q.store.length :=
    hbd q.head (List.mem_append_left _ (List.mem_cons_self _ _))
  have htaillt : q.tail < q.store.length :=
    hbd q.tail (List.mem_append_right _ (List.mem_cons_of_mem _ (List.mem_cons_self _ _)))
  have hklt : ((q.head :: is0).getLast (List.cons_ne_nil _ _)) < q.store.length :=
    hbd _ (List.mem_append_left _ hk_mem)
  -- compute the dequeue
  have hpt : prevOf q.store q.tail = some jl := hlinkjt.2
  have hpjl : prevOf q.store jl
      = some ((q.head :: is0).getLast (List.cons_ne_nil _ _)) := hlinkkj.2
  have hdeq : q.dequeue = (Except.ok (valueOf q.store jl),
      { q with store := (setNext
        (setPrev q.store q.tail
          (some ((q.head :: is0).getLast (List.cons_ne_nil _ _))))
        ((q.head :: is0).getLast (List.cons_ne_nil _ _)) (some q.tail)) }) := by
    simp only [dequeue, hpt, hpjl, if_neg hjl_ne_head,
      dll_prevOf_setPrev_self (some ((q.head :: is0).getLast (List.cons_ne_nil _ _))) htaillt]
  constructor
  · rw [hdeq, hvaljl]
  · -- the new state still models vs
    rw [hdeq]
    -- read equations
    have hlen1 : (setPrev q.store q.tail
        (some ((q.head :: is0).getLast (List.cons_ne_nil _ _)))).length
        = q.store.length := dll_setPrev_length _ _ _
    have hlen2 : (setNext
        (setPrev q.store q.tail
          (some ((q.head :: is0).getLast (List.cons_ne_nil _ _))))
        ((q.head :: is0).getLast (List.cons_ne_nil _ _)) (some q.tail)).length
        = q.store.length := by rw [dll_setNext_length, hlen1]
    have hval2 : ∀ i, valueOf (setNext
        (setPrev q.store q.tail
          (some ((q.head :: is0).getLast (List.cons_ne_nil _ _))))
        ((q.head :: is0).getLast (List.cons_ne_nil _ _)) (some q.tail)) i
        = valueOf q.store i := fun i => by
      rw [dll_valueOf_setNext, dll_valueOf_setPrev]
    have hprev2_ne : ∀ i, i ≠ q.tail → prevOf (setNext
        (setPrev q.store q.tail
          (some ((q.head :: is0).getLast (List.cons_ne_nil _ _))))
        ((q.head :: is0).getLast (List.cons_ne_nil _ _)) (some q.tail)) i
        = prevOf q.store i := fun i hi => by
      rw [dll_prevOf_setNext, dll_prevOf_setPrev_ne _ _ (fun he => hi he.symm)]
    have hprev2_tail : prevOf (setNext
        (setPrev q.store q.tail
          (some ((q.head :: is0).getLast (List.cons_ne_nil _ _))))
        ((q.head :: is0).getLast (List.cons_ne_nil _ _)) (some q.tail)) q.tail
        = some ((q.head :: is0).getLast (List.cons_ne_nil _ _)) := by
      rw [dll_prevOf_setNext, dll_prevOf_setPrev_self _ htaillt]
    have hnext2_ne : ∀ i, i ≠ ((q.head :: is0).getLast (List.cons_ne_nil _ _)) →
        nextOf (setNext
          (setPrev q.store q.tail
            (some ((q.head :: is0).getLast (List.cons_ne_nil _ _))))
          ((q.head :: is0).getLast (List.cons_ne_nil _ _)) (some q.tail)) i
        = nextOf q.store i := fun i hi => by
      rw [dll_nextOf_setNext_ne _ _ (fun he => hi he.symm), dll_nextOf_setPrev]
    have hnext2_k : nextOf (setNext
        (setPrev q.store q.tail
          (some ((q.head :: is0).getLast (List.cons_ne_nil _ _))))
        ((q.head :: is0).getLast (List.cons_ne_nil _ _)) (some q.tail))
        ((q.head :: is0).getLast (List.cons_ne_nil _ _)) = some q.tail := by
      rw [dll_nextOf_setNext_self _ (by rw [hlen1]; exact hklt)]
    -- the getLast is not among the earlier nodes
    have hk_notin_dropLast :
        ∀ a ∈ (q.head :: is0).dropLast,
          a ≠ ((q.head :: is0).getLast (List.cons_ne_nil _ _)) := by
      have hsplit : (q.head :: is0).dropLast
          ++ [(q.head :: is0).getLast (List.cons_ne_nil _ _)] = q.head :: is0 :=
        List.dropLast_append_getLast _
      intro a ha he
      have hnd1' := hnd1
      rw [← hsplit, List.nodup_append] at hnd1'
      exact hnd1'.2.2 ha (he ▸ List.mem_cons_self _ _)
    refine ⟨is0, ?_, ?_, ?_, ?_, ?_, ?_, ?_, ?_⟩
    · -- chain
      show List.Chain' _ (q.head :: is0 ++ [q.tail])
      rw [List.chain'_append]
      refine ⟨?_, List.chain'_singleton _, ?_⟩
      · refine chain'_congr ?_ hch1
        intro a ha b hb hab
        have ha2 : a ∈ q.head :: is0 := List.dropLast_subset _ ha
        have hb2 : b ∈ q.head :: is0 := List.mem_cons_of_mem _ hb
        have halt : a < q.store.length := hbd a (List.mem_append_left _ ha2)
        have hblt : b < q.store.length := hbd b (List.mem_append_left _ hb2)
        have hbne_tail : b ≠ q.tail := fun he => htail_notin1 (he ▸ hb2)
        refine ⟨?_, ?_⟩
        · rw [hnext2_ne _ (hk_notin_dropLast a ha)]
          exact hab.1
        · rw [hprev2_ne _ hbne_tail]
          exact hab.2
      · intro y hy z hz
        rw [hk_last] at hy
        cases hy
        cases hz
        exact ⟨hnext2_k, hprev2_tail⟩
    · -- distinctness
      show (q.head :: is0 ++ [q.tail]).Nodup
      rw [List.nodup_append]
      refine ⟨hnd1, List.nodup_singleton _, ?_⟩
      intro a ha hb
      rcases List.mem_singleton.mp hb with he
      exact htail_notin1 (he ▸ ha)
    · -- bounds
      intro i hi
      rw [hlen2]
      rcases List.mem_append.mp hi with h1 | h2
      · exact hbd i (List.mem_append_left _ h1)
      · rcases List.mem_singleton.mp h2 with he
        exact he ▸ htaillt
    · -- values
      rw [← hval0]
      refine List.map_congr_left ?_
      intro i _
      exact hval2 i
    · rw [hval2]; exact hvh
    · rw [hval2]; exact hvt
    · rw [hprev2_ne _ hhead_ne_tail]; exact hph
    · rw [hnext2_ne _ (fun he => hk_ne_tail he.symm)]; exact hnt

end DLLStepDeq

section DLLRun

open FifoQueueOfLinkedList

theorem dll_models_init {α : Type} : (FifoQueueOfLinkedList.init α).Models [] := by
  refine ⟨[], ?_, ?_, ?_, rfl, rfl, rfl, rfl, rfl⟩
  · show List.Chain' _ ([1] ++ [0])
    simp only [List.singleton_append]
    exact List.chain'_cons.mpr ⟨⟨rfl, rfl⟩, List.chain'_singleton _⟩
  · show ([1] ++ [0]).Nodup
    simp
  · intro i hi
    rcases List.mem_append.mp hi with h1 | h2
    · rw [List.mem_singleton.mp h1]
      show 1 < 2
      omega
    · rw [List.mem_singleton.mp h2]
      show 0 < 2
      omega

theorem dll_sizeLoop_followLinks {α : Type} (store : List (DLNode α)) :
    ∀ fuel k : Nat, FifoQueueOfLinkedList.sizeLoop store fuel k
      = (followLinks (nextOf store) fuel k).length := by
  intro fuel
  induction fuel with
  | zero => intro k; rfl
  | succ f ih =>
    intro k
    simp only [FifoQueueOfLinkedList.sizeLoop, followLinks]
    cases nextOf store k with
    | none => rfl
    | some j =>
      show 1 + FifoQueueOfLinkedList.sizeLoop store f j
        = (followLinks (nextOf store) f j).length + 1
      rw [ih j]
      omega

theorem dll_models_paths {α : Type} {q : FifoQueueOfLinkedList α} {vs : List α}
    (h : q.Models vs) :
    ∃ is : List Nat,
      is.map (valueOf q.store) = vs.map some ∧
      path (nextOf q.store) q.head (is ++ [q.tail]) ∧
      path (prevOf q.store) q.tail (is.reverse ++ [q.head]) ∧
      (q.head :: is ++ [q.tail]).Nodup ∧
      (∀ i ∈ q.head :: is ++ [q.tail], i < q.store.length) ∧
      List.Chain' (linked q.store) (q.head :: is ++ [q.tail]) := by
  obtain ⟨is, hch, hnd, hbd, hval, hvh, hvt, hph, hnt⟩ := h
  refine ⟨is, hval, ?_, ?_, hnd, hbd, hch⟩
  · -- follow next links from head
    refine path_of_chain _ _ _ ?_ ?_
    · have hch2 : List.Chain' (linked q.store) (q.head :: (is ++ [q.tail])) := by
        simpa only [List.cons_append] using hch
      exact hch2.imp (fun a b hab => hab.1)
    · have hlast : (q.head :: (is ++ [q.tail])).getLast
          (List.cons_ne_nil _ _) = q.tail := by
        rw [List.getLast_cons (by simp)]
        exact List.getLast_append _
      rw [hlast]
      exact hnt
  · -- follow previous links from tail
    have hrev : List.Chain' (fun a b => prevOf q.store a = some b)
        (q.tail :: (is.reverse ++ [q.head])) := by
      have h1 : List.Chain' (flip (linked q.store))
          ((q.head :: is ++ [q.tail]).reverse) :=
        (List.chain'_reverse).mpr hch
      have h2 : (q.head :: is ++ [q.tail]).reverse
          = q.tail :: (is.reverse ++ [q.head]) := by simp
      rw [h2] at h1
      exact h1.imp (fun a b hab => hab.2)
    refine path_of_chain _ _ _ hrev ?_
    have hlast : (q.tail :: (is.reverse ++ [q.head])).getLast
        (List.cons_ne_nil _ _) = q.head := by
      rw [List.getLast_cons (by simp)]
      exact List.getLast_append _
    rw [hlast]
    exact hph

theorem dll_models_size {α : Type} {q : FifoQueueOfLinkedList α} {vs : List α}
    (h : q.Models vs) : q.size = vs.length := by
  obtain ⟨is, hval, hfwd, _, hnd, hbd, _⟩ := dll_models_paths h
  have hislen : is.length = vs.length := by
    have := congrArg List.length hval
    simpa using this
  have hbound : is.length + 2 ≤ q.store.length := by
    have := nodup_lt_length_le (q.head :: is ++ [q.tail]) hnd hbd
    simp only [List.cons_append, List.length_cons, List.length_append,
      List.length_cons, List.length_nil] at this
    omega
  obtain ⟨j, jrest, hje⟩ : ∃ j jrest, is ++ [q.tail] = j :: jrest := by
    cases is with
    | nil => exact ⟨q.tail, [], rfl⟩
    | cons a t => exact ⟨a, t ++ [q.tail], rfl⟩
  have hjlen : jrest.length = is.length := by
    have := congrArg List.length hje
    simp at this
    omega
  rw [hje] at hfwd
  simp only [path] at hfwd
  show FifoQueueOfLinkedList.size q = vs.length
  unfold FifoQueueOfLinkedList.size
  rw [hfwd.1]
  show FifoQueueOfLinkedList.sizeLoop q.store q.store.length j = vs.length
  rw [dll_sizeLoop_followLinks,
    followLinks_of_path _ jrest j _ hfwd.2 (by omega)]
  omega

theorem dll_models_consistent {α : Type} {q : FifoQueueOfLinkedList α}
    {vs : List α} (h : q.Models vs) : q.consistent := by
  obtain ⟨is, hval, hfwd, hbwd, hnd, hbd, hch⟩ := dll_models_paths h
  have hbound : is.length + 2 ≤ q.store.length := by
    have := nodup_lt_length_le (q.head :: is ++ [q.tail]) hnd hbd
    simp only [List.cons_append, List.length_cons, List.length_append,
      List.length_cons, List.length_nil] at this
    omega
  have hfl : followLinks (nextOf q.store) q.store.length q.head
      = is ++ [q.tail] :=
    followLinks_of_path _ _ _ _ hfwd (by simp; omega)
  have hbl : followLinks (prevOf q.store) q.store.length q.tail
      = is.reverse ++ [q.head] :=
    followLinks_of_path _ _ _ _ hbwd (by simp; omega)
  constructor
  · rw [FifoQueueOfLinkedList.forwardNodes, FifoQueueOfLinkedList.backwardNodes,
      hfl, hbl]
    simp
  · rw [FifoQueueOfLinkedList.forwardNodes, hfl]
    simpa only [List.cons_append] using hch

theorem dll_enqueue_head {α : Type} (q : FifoQueueOfLinkedList α) (el : α) :
    (q.enqueue el).head = q.head ∧ (q.enqueue el).tail = q.tail :=
  ⟨rfl, rfl⟩

theorem dll_dequeue_head {α : Type} (q : FifoQueueOfLinkedList α) :
    q.dequeue.2.head = q.head ∧ q.dequeue.2.tail = q.tail := by
  unfold FifoQueueOfLinkedList.dequeue
  cases prevOf q.store q.tail with
  | none => exact ⟨rfl, rfl⟩
  | some j =>
    by_cases hj : j = q.head
    · simp [hj]
    · simp [hj]

theorem dll_run_sim {α : Type} :
    ∀ (ops : List (QOp α)) (q : FifoQueueOfLinkedList α) (vs : List α),
      q.Models vs →
      (FifoQueueOfLinkedList.run ops q).2 = (refQRun ops vs.reverse).2 ∧
      (FifoQueueOfLinkedList.run ops q).1.Models
        ((refQRun ops vs.reverse).1).reverse := by
  intro ops
  induction ops with
  | nil =>
    intro q vs h
    refine ⟨rfl, ?_⟩
    show q.Models (vs.reverse.reverse)
    rw [List.reverse_reverse]
    exact h
  | cons op rest ih =>
    intro q vs h
    cases op with
    | enq a =>
      have h2 := ih (q.enqueue a) (a :: vs) (dll_models_enqueue a h)
      rw [List.reverse_cons] at h2
      simpa [FifoQueueOfLinkedList.run, refQRun] using h2
    | deq =>
      rcases List.eq_nil_or_concat vs with hvs | ⟨vs0, x, hvs⟩
      · subst hvs
        have hde := dll_models_dequeue_nil h
        have h2 := ih q [] h
        simp only [FifoQueueOfLinkedList.run, refQRun, hde, resValueD,
          List.reverse_nil, List.head?_nil, List.tail_nil]
        exact ⟨by rw [h2.1]; simp [resValueD], h2.2⟩
      · rw [hvs, List.concat_eq_append] at h
        obtain ⟨h1, h2⟩ := dll_models_dequeue_concat h
        have h3 := ih q.dequeue.2 vs0 h2
        rw [hvs]
        have hrev : (vs0.concat x).reverse = x :: vs0.reverse := by simp
        rw [hrev]
        simp only [FifoQueueOfLinkedList.run, refQRun, List.head?_cons,
          List.tail_cons]
        exact ⟨by rw [h1, h3.1]; rfl, h3.2⟩

end DLLRun

/-! ## Proofs: heap access lemmas for the singly-linked stack -/

section SLLHeap

open StackOfLinkedList

theorem sll_setNext_length {α : Type} (store : List (SLNode α)) (k : Nat)
    (v : Option Nat) : (StackOfLinkedList.setNext store k v).length = store.length := by
  unfold StackOfLinkedList.setNext
  cases store[k]? <;> simp

theorem sll_valueOf_append {α : Type} {store : List (SLNode α)}
    (l : List (SLNode α)) {k : Nat} (h : k < store.length) :
    StackOfLinkedList.valueOf (store ++ l) k = StackOfLinkedList.valueOf store k := by
  unfold StackOfLinkedList.valueOf
  rw [List.getElem?_append_left h]

theorem sll_nextOf_append {α : Type} {store : List (SLNode α)}
    (l : List (SLNode α)) {k : Nat} (h : k < store.length) :
    StackOfLinkedList.nextOf (store ++ l) k = StackOfLinkedList.nextOf store k := by
  unfold StackOfLinkedList.nextOf
  rw [List.getElem?_append_left h]

theorem sll_valueOf_append_new {α : Type} (store : List (SLNode α))
    (n : SLNode α) :
    StackOfLinkedList.valueOf (store ++ [n]) store.length = n.value := by
  unfold StackOfLinkedList.valueOf
  simp

theorem sll_nextOf_append_new {α : Type} (store : List (SLNode α))
    (n : SLNode α) :
    StackOfLinkedList.nextOf (store ++ [n]) store.length = n.next := by
  unfold StackOfLinkedList.nextOf
  simp

theorem sll_valueOf_setNext {α : Type} (store : List (SLNode α)) (k : Nat)
    (v : Option Nat) (i : Nat) :
    StackOfLinkedList.valueOf (StackOfLinkedList.setNext store k v) i
      = StackOfLinkedList.valueOf store i := by
  unfold StackOfLinkedList.valueOf StackOfLinkedList.setNext
  cases hk : store[k]? with
  | none => rfl
  | some n =>
    by_cases hik : k = i
    · subst hik
      have hlt : k < store.length :=
        (List.getElem?_eq_some_iff.mp hk).1
      simp [List.getElem?_set_self, hlt, hk]
    · rw [List.getElem?_set_ne hik]

theorem sll_nextOf_setNext_ne {α : Type} (store : List (SLNode α)) {k : Nat}
    (v : Option Nat) {i : Nat} (h : k ≠ i) :
    StackOfLinkedList.nextOf (StackOfLinkedList.setNext store k v) i
      = StackOfLinkedList.nextOf store i := by
  unfold StackOfLinkedList.nextOf StackOfLinkedList.setNext
  cases hk : store[k]? with
  | none => rfl
  | some n => rw [List.getElem?_set_ne h]

theorem sll_nextOf_setNext_self {α : Type} {store : List (SLNode α)} {k : Nat}
    (v : Option Nat) (h : k < store.length) :
    StackOfLinkedList.nextOf (StackOfLinkedList.setNext store k v) k = v := by
  unfold StackOfLinkedList.nextOf StackOfLinkedList.setNext
  cases hk : store[k]? with
  | none =>
    rw [List.getElem?_eq_getElem h] at hk
    cases hk
  | some n => simp [List.getElem?_set_self, h]

end SLLHeap

/-! ## Proofs: the singly-linked stack maintains its representation -/

section SLLStep

open StackOfLinkedList

theorem sll_models_init {α : Type} : (StackOfLinkedList.init α).Models [] := by
  refine ⟨[], List.chain'_singleton _, by simp, ?_, rfl, rfl, rfl⟩
  intro i hi
  rw [List.mem_singleton.mp hi]
  show 0 < 1
  omega

theorem sll_models_push {α : Type} {s : StackOfLinkedList α} {vs : List α}
    (el : α) (h : s.Models vs) : (s.push el).Models (el :: vs) := by
  obtain ⟨is, hch, hnd, hbd, hval, hvh, hlast⟩ := h
  have hheadlt : s.head < s.store.length := hbd s.head (List.mem_cons_self _ _)
  rw [List.nodup_cons] at hnd
  obtain ⟨hhd_notin, hndt⟩ := hnd
  have hmem_lt : ∀ i ∈ is, i < s.store.length := fun i hi =>
    hbd i (List.mem_cons_of_mem _ hi)
  have hpush : s.push el = { s with store := (StackOfLinkedList.setNext
      (s.store ++ [⟨some el, StackOfLinkedList.nextOf s.store s.head⟩])
      s.head (some s.store.length)) } := rfl
  rw [hpush]
  have hlen1 : (s.store ++ [(⟨some el, StackOfLinkedList.nextOf s.store s.head⟩ :
      SLNode α)]).length = s.store.length + 1 := by simp
  have hlen2 : (StackOfLinkedList.setNext
      (s.store ++ [⟨some el, StackOfLinkedList.nextOf s.store s.head⟩])
      s.head (some s.store.length)).length = s.store.length + 1 := by
    rw [sll_setNext_length, hlen1]
  have hval2_old : ∀ i, i < s.store.length →
      StackOfLinkedList.valueOf (StackOfLinkedList.setNext
        (s.store ++ [⟨some el, StackOfLinkedList.nextOf s.store s.head⟩])
        s.head (some s.store.length)) i
      = StackOfLinkedList.valueOf s.store i := fun i hi => by
    rw [sll_valueOf_setNext, sll_valueOf_append _ hi]
  have hval2_new : StackOfLinkedList.valueOf (StackOfLinkedList.setNext
      (s.store ++ [⟨some el, StackOfLinkedList.nextOf s.store s.head⟩])
      s.head (some s.store.length)) s.store.length = some el := by
    rw [sll_valueOf_setNext, sll_valueOf_append_new]
  have hnext2_ne : ∀ i, i ≠ s.head → i < s.store.length →
      StackOfLinkedList.nextOf (StackOfLinkedList.setNext
        (s.store ++ [⟨some el, StackOfLinkedList.nextOf s.store s.head⟩])
        s.head (some s.store.length)) i
      = StackOfLinkedList.nextOf s.store i := fun i hi hilt => by
    rw [sll_nextOf_setNext_ne _ _ (fun he => hi he.symm), sll_nextOf_append _ hilt]
  have hnext2_new : StackOfLinkedList.nextOf (StackOfLinkedList.setNext
      (s.store ++ [⟨some el, StackOfLinkedList.nextOf s.store s.head⟩])
      s.head (some s.store.length)) s.store.length
      = StackOfLinkedList.nextOf s.store s.head := by
    rw [sll_nextOf_setNext_ne _ _ (fun he => absurd (he ▸ hheadlt) (lt_irrefl _)),
      sll_nextOf_append_new]
  have hnext2_head : StackOfLinkedList.nextOf (StackOfLinkedList.setNext
      (s.store ++ [⟨some el, StackOfLinkedList.nextOf s.store s.head⟩])
      s.head (some s.store.length)) s.head = some s.store.length := by
    rw [sll_nextOf_setNext_self _ (by rw [hlen1]; omega)]
  refine ⟨s.store.length :: is, ?_, ?_, ?_, ?_, ?_, ?_⟩
  · -- chain
    refine List.chain'_cons.mpr ⟨hnext2_head, ?_⟩
    cases his : is with
    | nil => exact List.chain'_singleton _
    | cons j rest =>
      rw [his] at hch
      rw [List.chain'_cons] at hch
      refine List.chain'_cons.mpr ⟨?_, ?_⟩
      · rw [hnext2_new, hch.1]
      · refine chain'_congr ?_ hch.2
        intro a ha b hb hab
        have ha2 : a ∈ j :: rest := List.dropLast_subset _ ha
        have hane : a ≠ s.head := fun he => hhd_notin (he ▸ his ▸ ha2)
        have halt : a < s.store.length := hmem_lt a (his ▸ ha2)
        rw [hnext2_ne a hane halt]
        exact hab
  · -- distinctness
    rw [List.nodup_cons, List.nodup_cons]
    refine ⟨?_, ?_, hndt⟩
    · intro hmem
      rcases List.mem_cons.mp hmem with he | hmem2
      · exact absurd (he ▸ hheadlt) (lt_irrefl _)
      · exact hhd_notin hmem2
    · intro hmem
      exact absurd (hmem_lt _ hmem) (lt_irrefl _)
  · -- bounds
    intro i hi
    rw [hlen2]
    rcases List.mem_cons.mp hi with he | hi2
    · have he2 : i = s.head := he
      omega
    · rcases List.mem_cons.mp hi2 with he | hi3
      · omega
      · have := hmem_lt i hi3
        omega
  · -- values
    rw [List.map_cons, List.map_cons, hval2_new]
    congr 1
    rw [← hval]
    refine List.map_congr_left ?_
    intro i hi
    exact hval2_old i (hmem_lt i hi)
  · rw [hval2_old _ hheadlt]
    exact hvh
  · -- the last node still ends the chain
    cases his : is with
    | nil =>
      show StackOfLinkedList.nextOf _ s.store.length = none
      rw [hnext2_new]
      rw [his] at hlast
      exact hlast
    | cons j rest =>
      have hne : (s.store.length :: j :: rest) ≠ [] := List.cons_ne_nil _ _
      show StackOfLinkedList.nextOf _
        ((s.head :: s.store.length :: j :: rest).getLast (List.cons_ne_nil _ _)) = none
      rw [List.getLast_cons hne, List.getLast_cons (List.cons_ne_nil j rest)]
      have hmem : (j :: rest).getLast (List.cons_ne_nil j rest) ∈ j :: rest :=
        List.getLast_mem _
      have hne2 : (j :: rest).getLast (List.cons_ne_nil j rest) ≠ s.head :=
        fun he => hhd_notin (he ▸ his ▸ hmem)
      rw [hnext2_ne _ hne2 (hmem_lt _ (his ▸ hmem))]
      rw [his] at hlast
      rw [List.getLast_cons (List.cons_ne_nil j rest)] at hlast
      exact hlast

theorem sll_models_pop_nil {α : Type} {s : StackOfLinkedList α}
    (h : s.Models []) : s.pop = (Except.error Err.nameError, s) := by
  obtain ⟨is, hch, hnd, hbd, hval, hvh, hlast⟩ := h
  have his : is = [] := by
    cases is with
    | nil => rfl
    | cons a t => simp at hval
  subst his
  have h2 : StackOfLinkedList.nextOf s.store s.head = none := hlast
  unfold StackOfLinkedList.pop
  rw [h2]

theorem sll_models_pop_cons {α : Type} {s : StackOfLinkedList α} {x : α}
    {vs : List α} (h : s.Models (x :: vs)) :
    s.pop.1 = Except.ok (some x) ∧ s.pop.2.Models vs := by
  obtain ⟨is, hch, hnd, hbd, hval, hvh, hlast⟩ := h
  obtain ⟨j, rest, his⟩ : ∃ j rest, is = j :: rest := by
    cases is with
    | nil => simp at hval
    | cons a t => exact ⟨a, t, rfl⟩
  subst his
  rw [List.chain'_cons] at hch
  obtain ⟨hnhd, hch2⟩ := hch
  rw [List.nodup_cons] at hnd
  obtain ⟨hhd_notin, hndt⟩ := hnd
  rw [List.map_cons, List.map_cons] at hval
  have hvj : StackOfLinkedList.valueOf s.store j = some x :=
    (List.cons.injEq _ _ _ _ ▸ hval).1
  have hvrest : rest.map (StackOfLinkedList.valueOf s.store) = vs.map some :=
    (List.cons.injEq _ _ _ _ ▸ hval).2
  have hheadlt : s.head < s.store.length := hbd s.head (List.mem_cons_self _ _)
  have hmem_lt : ∀ i ∈ j :: rest, i < s.store.length := fun i hi =>
    hbd i (List.mem_cons_of_mem _ hi)
  have hpop : s.pop = (Except.ok (StackOfLinkedList.valueOf s.store j),
      { s with store := (StackOfLinkedList.setNext s.store s.head
        (StackOfLinkedList.nextOf s.store j)) }) := by
    simp only [StackOfLinkedList.pop, hnhd]
  constructor
  · rw [hpop, hvj]
  · rw [hpop]
    have hlen1 : (StackOfLinkedList.setNext s.store s.head
        (StackOfLinkedList.nextOf s.store j)).length = s.store.length :=
      sll_setNext_length _ _ _
    have hval1 : ∀ i, StackOfLinkedList.valueOf (StackOfLinkedList.setNext
        s.store s.head (StackOfLinkedList.nextOf s.store j)) i
        = StackOfLinkedList.valueOf s.store i := fun i =>
      sll_valueOf_setNext _ _ _ _
    have hnext1_ne : ∀ i, i ≠ s.head →
        StackOfLinkedList.nextOf (StackOfLinkedList.setNext s.store s.head
          (StackOfLinkedList.nextOf s.store j)) i
        = StackOfLinkedList.nextOf s.store i := fun i hi =>
      sll_nextOf_setNext_ne _ _ (fun he => hi he.symm)
    have hnext1_head : StackOfLinkedList.nextOf (StackOfLinkedList.setNext
        s.store s.head (StackOfLinkedList.nextOf s.store j)) s.head
        = StackOfLinkedList.nextOf s.store j :=
      sll_nextOf_setNext_self _ hheadlt
    refine ⟨rest, ?_, ?_, ?_, ?_, ?_, ?_⟩
    · -- chain
      cases hrest : rest with
      | nil => exact List.chain'_singleton _
      | cons j2 r2 =>
        rw [hrest] at hch2
        rw [List.chain'_cons] at hch2
        refine List.chain'_cons.mpr ⟨?_, ?_⟩
        · rw [hnext1_head, hch2.1]
        · refine chain'_congr ?_ hch2.2
          intro a ha b hb hab
          have ha2 : a ∈ j2 :: r2 := List.dropLast_subset _ ha
          have hane : a ≠ s.head := fun he =>
            hhd_notin (he ▸ List.mem_cons_of_mem _ (hrest ▸ ha2))
          rw [hnext1_ne a hane]
          exact hab
    · -- distinctness
      rw [List.nodup_cons]
      refine ⟨?_, (List.nodup_cons.mp hndt).2⟩
      intro hmem
      exact hhd_notin (List.mem_cons_of_mem _ hmem)
    · -- bounds
      intro i hi
      rw [hlen1]
      rcases List.mem_cons.mp hi with he | hi2
      · exact he ▸ hheadlt
      · exact hmem_lt i (List.mem_cons_of_mem _ hi2)
    · -- values
      rw [← hvrest]
      refine List.map_congr_left ?_
      intro i _
      exact hval1 i
    · rw [hval1]
      exact hvh
    · -- the last node still ends the chain
      cases hrest : rest with
      | nil =>
        show StackOfLinkedList.nextOf _ s.head = none
        rw [hnext1_head]
        have h2 : StackOfLinkedList.nextOf s.store j = none := by
          have := hlast
          rw [hrest] at this
          rw [List.getLast_cons (List.cons_ne_nil j [])] at this
          exact this
        exact h2
      | cons j2 r2 =>
        show StackOfLinkedList.nextOf _
          ((s.head :: j2 :: r2).getLast (List.cons_ne_nil _ _)) = none
        rw [List.getLast_cons (List.cons_ne_nil j2 r2)]
        have hmem : (j2 :: r2).getLast (List.cons_ne_nil j2 r2) ∈ j2 :: r2 :=
          List.getLast_mem _
        have hne2 : (j2 :: r2).getLast (List.cons_ne_nil j2 r2) ≠ s.head :=
          fun he => hhd_notin (he ▸ List.mem_cons_of_mem _ (hrest ▸ hmem))
        rw [hnext1_ne _ hne2]
        have := hlast
        rw [hrest] at this
        rw [List.getLast_cons (List.cons_ne_nil j (j2 :: r2)),
          List.getLast_cons (List.cons_ne_nil j2 r2)] at this
        exact this

end SLLStep

section SLLRun

open StackOfLinkedList

theorem sll_sizeLoop_followLinks {α : Type} (store : List (SLNode α)) :
    ∀ fuel k : Nat, StackOfLinkedList.sizeLoop store fuel k
      = (followLinks (StackOfLinkedList.nextOf store) fuel k).length := by
  intro fuel
  induction fuel with
  | zero => intro k; rfl
  | succ f ih =>
    intro k
    simp only [StackOfLinkedList.sizeLoop, followLinks]
    cases StackOfLinkedList.nextOf store k with
    | none => rfl
    | some j =>
      show 1 + StackOfLinkedList.sizeLoop store f j
        = (followLinks (StackOfLinkedList.nextOf store) f j).length + 1
      rw [ih j]
      omega

theorem sll_models_size {α : Type} {s : StackOfLinkedList α} {vs : List α}
    (h : s.Models vs) : s.size = vs.length := by
  obtain ⟨is, hch, hnd, hbd, hval, hvh, hlast⟩ := h
  have hpath : path (StackOfLinkedList.nextOf s.store) s.head is :=
    path_of_chain _ is s.head hch hlast
  have hislen : is.length = vs.length := by
    have := congrArg List.length hval
    simpa using this
  have hbound : is.length + 1 ≤ s.store.length := by
    have := nodup_lt_length_le (s.head :: is) hnd hbd
    simp only [List.length_cons] at this
    omega
  show StackOfLinkedList.size s = vs.length
  unfold StackOfLinkedList.size
  rw [sll_sizeLoop_followLinks,
    followLinks_of_path _ is s.head _ hpath (by omega)]
  omega

theorem sll_pop_head {α : Type} (s : StackOfLinkedList α) :
    s.pop.2.head = s.head := by
  unfold StackOfLinkedList.pop
  cases StackOfLinkedList.nextOf s.store s.head with
  | none => rfl
  | some j => rfl

theorem sll_run_sim {α : Type} :
    ∀ (ops : List (SOp α)) (s : StackOfLinkedList α) (vs : List α),
      s.Models vs →
      (StackOfLinkedList.run ops s).2 = (refSRun ops vs).2 ∧
      (StackOfLinkedList.run ops s).1.Models (refSRun ops vs).1 := by
  intro ops
  induction ops with
  | nil => intro s vs h; exact ⟨rfl, h⟩
  | cons op rest ih =>
    intro s vs h
    cases op with
    | push a =>
      have h2 := ih (s.push a) (a :: vs) (sll_models_push a h)
      simpa [StackOfLinkedList.run, refSRun] using h2
    | pop =>
      cases vs with
      | nil =>
        have hde := sll_models_pop_nil h
        have h2 := ih s [] h
        simp only [StackOfLinkedList.run, refSRun, hde, resValueD,
          List.head?_nil, List.tail_nil]
        exact ⟨by rw [h2.1], h2.2⟩
      | cons x xs =>
        obtain ⟨h1, h2⟩ := sll_models_pop_cons h
        have h3 := ih s.pop.2 xs h2
        simp only [StackOfLinkedList.run, refSRun, List.head?_cons,
          List.tail_cons]
        exact ⟨by rw [h1, h3.1]; rfl, h3.2⟩

end SLLRun

/-! ## Final helpers: head and tail attributes never change -/

theorem dll_run_headtail {α : Type} :
    ∀ (ops : List (QOp α)) (q : FifoQueueOfLinkedList α),
      (FifoQueueOfLinkedList.run ops q).1.head = q.head ∧
      (FifoQueueOfLinkedList.run ops q).1.tail = q.tail := by
  intro ops
  induction ops with
  | nil => intro q; exact ⟨rfl, rfl⟩
  | cons op rest ih =>
    intro q
    cases op with
    | enq a =>
      have h := ih (q.enqueue a)
      simpa [FifoQueueOfLinkedList.run] using h
    | deq =>
      have h := ih q.dequeue.2
      have h2 := dll_dequeue_head q
      simp only [FifoQueueOfLinkedList.run]
      exact ⟨h.1.trans h2.1, h.2.trans h2.2⟩

theorem sll_run_head {α : Type} :
    ∀ (ops : List (SOp α)) (s : StackOfLinkedList α),
      (StackOfLinkedList.run ops s).1.head = s.head := by
  intro ops
  induction ops with
  | nil => intro s; rfl
  | cons op rest ih =>
    intro s
    cases op with
    | push a =>
      have h := ih (s.push a)
      simpa [StackOfLinkedList.run] using h
    | pop =>
      have h := ih s.pop.2
      have h2 := sll_pop_head s
      simp only [StackOfLinkedList.run]
      exact h.trans h2

/-! ## Claim theorems -/

/-- C1: for every sequence of enqueues interleaved with dequeues in which
each dequeue happens on a non-empty container, `FifoQueueOfStacks` and
`FifoQueueOfLinkedList` both return dequeued elements in strict FIFO
order: their dequeue results coincide with those of the reference
list-based queue `refQRun` started empty. -/
theorem C1_fifo_order {α : Type} (ops : List (QOp α))
    (hvalid : validQOps ops 0 = true) :
    (FifoQueueOfStacks.run ops (FifoQueueOfStacks.init α)).2
      = (refQRun ops []).2 ∧
    (FifoQueueOfLinkedList.run ops (FifoQueueOfLinkedList.init α)).2
      = (refQRun ops []).2 := by
  constructor
  · have h := fqs_run_sim ops (FifoQueueOfStacks.init α)
    have hc : (FifoQueueOfStacks.init α).contents = [] := rfl
    rw [hc] at h
    exact h.1
  · have h := dll_run_sim ops (FifoQueueOfLinkedList.init α) [] dll_models_init
    simpa using h.1

/-- C1 witness: a concrete interleaved run on which the hypothesis holds
and both queues match the reference queue. -/
theorem C1_fifo_order_witness :
    validQOps [QOp.enq 1, QOp.enq 2, QOp.deq, QOp.enq 3, QOp.deq, QOp.deq]
      (0 : Nat) = true ∧
    ((FifoQueueOfStacks.run [QOp.enq 1, QOp.enq 2, QOp.deq, QOp.enq 3,
        QOp.deq, QOp.deq] (FifoQueueOfStacks.init Nat)).2
      = (refQRun [QOp.enq 1, QOp.enq 2, QOp.deq, QOp.enq 3, QOp.deq,
        QOp.deq] []).2 ∧
    (FifoQueueOfLinkedList.run [QOp.enq 1, QOp.enq 2, QOp.deq, QOp.enq 3,
        QOp.deq, QOp.deq] (FifoQueueOfLinkedList.init Nat)).2
      = (refQRun [QOp.enq 1, QOp.enq 2, QOp.deq, QOp.enq 3, QOp.deq,
        QOp.deq] []).2) :=
  ⟨by decide, C1_fifo_order _ (by decide)⟩

/-- C2: for every sequence of pushes interleaved with pops in which each
pop happens on a non-empty container, `StackOfQueues` and
`StackOfLinkedList` both return popped elements in strict LIFO order:
their pop results coincide with those of the reference list-based stack
`refSRun` started empty. -/
theorem C2_lifo_order {α : Type} (ops : List (SOp α))
    (hvalid : validSOps ops 0 = true) :
    (StackOfQueues.run ops (StackOfQueues.init α)).2
      = (refSRun ops []).2 ∧
    (StackOfLinkedList.run ops (StackOfLinkedList.init α)).2
      = (refSRun ops []).2 := by
  exact ⟨(soq_run_sim ops _ [] soq_models_init).1,
    (sll_run_sim ops _ [] sll_models_init).1⟩

/-- C2 witness: a concrete interleaved run on which the hypothesis holds
and both stacks match the reference stack. -/
theorem C2_lifo_order_witness :
    validSOps [SOp.push 1, SOp.push 2, SOp.pop, SOp.push 3, SOp.pop,
      SOp.pop] (0 : Nat) = true ∧
    ((StackOfQueues.run [SOp.push 1, SOp.push 2, SOp.pop, SOp.push 3,
        SOp.pop, SOp.pop] (StackOfQueues.init Nat)).2
      = (refSRun [SOp.push 1, SOp.push 2, SOp.pop, SOp.push 3, SOp.pop,
        SOp.pop] []).2 ∧
    (StackOfLinkedList.run [SOp.push 1, SOp.push 2, SOp.pop, SOp.push 3,
        SOp.pop, SOp.pop] (StackOfLinkedList.init Nat)).2
      = (refSRun [SOp.push 1, SOp.push 2, SOp.pop, SOp.push 3, SOp.pop,
        SOp.pop] []).2) :=
  ⟨by decide, C2_lifo_order _ (by decide)⟩

/-- C3 counterexample: the four containers do NOT share a single error
kind on empty removal.  Already the two buffer-pair containers differ: a
fresh `FifoQueueOfStacks` dequeue raises `IndexError` (from
`list.pop()` on an empty list) while a fresh `StackOfQueues` pop raises
`queue.Empty` (from `get_nowait()`). -/
theorem C3_error_kinds_counterexample :
    (FifoQueueOfStacks.dequeue (FifoQueueOfStacks.init Nat)).1
      = Except.error Err.indexError ∧
    (StackOfQueues.pop (StackOfQueues.init Nat)).1
      = Except.error Err.queueEmpty ∧
    Err.indexError ≠ Err.queueEmpty := by
  refine ⟨?_, rfl, by decide⟩
  have h := fqs_dequeue_of_empty (s := FifoQueueOfStacks.init Nat) rfl
  rw [h]

/-- C3 amended: whenever a removal is invoked on a container holding zero
elements — in any reachable state, including a fresh one — it fails with
an error that propagates to the caller (no sentinel value is returned);
but the error kind is not shared: `FifoQueueOfStacks` raises
`IndexError`, `StackOfQueues` raises `queue.Empty`, and both linked-list
containers raise `NameError` because their `raise Empty(...)` references
a name that is never imported. -/
theorem C3_error_kinds_amended {α : Type}
    (qops : List (QOp α)) (sops : List (SOp α))
    (h1 : (FifoQueueOfStacks.run qops (FifoQueueOfStacks.init α)).1.size = 0)
    (h2 : (StackOfQueues.run sops (StackOfQueues.init α)).1.size = 0)
    (h3 : (FifoQueueOfLinkedList.run qops
      (FifoQueueOfLinkedList.init α)).1.size = 0)
    (h4 : (StackOfLinkedList.run sops (StackOfLinkedList.init α)).1.size = 0) :
    ((FifoQueueOfStacks.run qops (FifoQueueOfStacks.init α)).1.dequeue).1
      = Except.error Err.indexError ∧
    ((StackOfQueues.run sops (StackOfQueues.init α)).1.pop).1
      = Except.error Err.queueEmpty ∧
    ((FifoQueueOfLinkedList.run qops
      (FifoQueueOfLinkedList.init α)).1.dequeue).1
      = Except.error Err.nameError ∧
    ((StackOfLinkedList.run sops (StackOfLinkedList.init α)).1.pop).1
      = Except.error Err.nameError := by
  refine ⟨?_, ?_, ?_, ?_⟩
  · have hs := fqs_run_sim qops (FifoQueueOfStacks.init α)
    have hc : (FifoQueueOfStacks.init α).contents = [] := rfl
    rw [hc] at hs
    rw [fqs_size_contents] at h1
    have hnil := List.length_eq_zero.mp h1
    rw [fqs_dequeue_of_empty hnil]
  · have hm := (soq_run_sim sops _ [] soq_models_init).2
    rw [soq_size_models hm] at h2
    have hnil := List.length_eq_zero.mp h2
    rw [hnil] at hm
    rw [soq_pop_of_empty hm]
  · have hm := (dll_run_sim qops _ [] dll_models_init).2
    rw [dll_models_size hm] at h3
    have hnil := List.length_eq_zero.mp h3
    rw [hnil] at hm
    rw [dll_models_dequeue_nil hm]
  · have hm := (sll_run_sim sops _ [] sll_models_init).2
    rw [sll_models_size hm] at h4
    have hnil := List.length_eq_zero.mp h4
    rw [hnil] at hm
    rw [sll_models_pop_nil hm]

/-- C3 amended witness: on the freshly constructed containers the four
size hypotheses hold and the four error kinds come out as stated. -/
theorem C3_error_kinds_amended_witness :
    (FifoQueueOfStacks.run ([] : List (QOp Nat))
      (FifoQueueOfStacks.init Nat)).1.size = 0 ∧
    (StackOfQueues.run ([] : List (SOp Nat))
      (StackOfQueues.init Nat)).1.size = 0 ∧
    (FifoQueueOfLinkedList.run ([] : List (QOp Nat))
      (FifoQueueOfLinkedList.init Nat)).1.size = 0 ∧
    (StackOfLinkedList.run ([] : List (SOp Nat))
      (StackOfLinkedList.init Nat)).1.size = 0 ∧
    (((FifoQueueOfStacks.run ([] : List (QOp Nat))
        (FifoQueueOfStacks.init Nat)).1.dequeue).1
      = Except.error Err.indexError ∧
    ((StackOfQueues.run ([] : List (SOp Nat))
        (StackOfQueues.init Nat)).1.pop).1
      = Except.error Err.queueEmpty ∧
    ((FifoQueueOfLinkedList.run ([] : List (QOp Nat))
        (FifoQueueOfLinkedList.init Nat)).1.dequeue).1
      = Except.error Err.nameError ∧
    ((StackOfLinkedList.run ([] : List (SOp Nat))
        (StackOfLinkedList.init Nat)).1.pop).1
      = Except.error Err.nameError) :=
  ⟨rfl, rfl, rfl, rfl, C3_error_kinds_amended [] [] rfl rfl rfl rfl⟩

/-- C4: for each of the four containers and every operation sequence,
`size()` equals the number of inserts performed minus the number of
successful removals, and the number of successful removals never exceeds
the number of inserts (so the difference is never negative). -/
theorem C4_size_counts {α : Type} (qops : List (QOp α))
    (sops : List (SOp α)) :
    ((FifoQueueOfStacks.run qops (FifoQueueOfStacks.init α)).1.size
        = numEnq qops
          - numOk (FifoQueueOfStacks.run qops (FifoQueueOfStacks.init α)).2 ∧
      numOk (FifoQueueOfStacks.run qops (FifoQueueOfStacks.init α)).2
        ≤ numEnq qops) ∧
    ((FifoQueueOfLinkedList.run qops (FifoQueueOfLinkedList.init α)).1.size
        = numEnq qops - numOk
          (FifoQueueOfLinkedList.run qops (FifoQueueOfLinkedList.init α)).2 ∧
      numOk (FifoQueueOfLinkedList.run qops (FifoQueueOfLinkedList.init α)).2
        ≤ numEnq qops) ∧
    ((StackOfQueues.run sops (StackOfQueues.init α)).1.size
        = numPush sops
          - numOk (StackOfQueues.run sops (StackOfQueues.init α)).2 ∧
      numOk (StackOfQueues.run sops (StackOfQueues.init α)).2
        ≤ numPush sops) ∧
    ((StackOfLinkedList.run sops (StackOfLinkedList.init α)).1.size
        = numPush sops
          - numOk (StackOfLinkedList.run sops (StackOfLinkedList.init α)).2 ∧
      numOk (StackOfLinkedList.run sops (StackOfLinkedList.init α)).2
        ≤ numPush sops) := by
  have hcq := refQRun_count qops ([] : List α)
  have hcs := refSRun_count sops ([] : List α)
  simp only [List.length_nil, Nat.zero_add] at hcq hcs
  refine ⟨?_, ?_, ?_, ?_⟩
  · have hs := fqs_run_sim qops (FifoQueueOfStacks.init α)
    have hc : (FifoQueueOfStacks.init α).contents = [] := rfl
    rw [hc] at hs
    rw [fqs_size_contents, hs.2, hs.1]
    omega
  · have hm := dll_run_sim qops (FifoQueueOfLinkedList.init α) []
      dll_models_init
    simp only [List.reverse_nil] at hm
    rw [dll_models_size hm.2, hm.1, List.length_reverse]
    omega
  · have hm := soq_run_sim sops (StackOfQueues.init α) [] soq_models_init
    rw [soq_size_models hm.2, hm.1]
    omega
  · have hm := sll_run_sim sops (StackOfLinkedList.init α) [] sll_models_init
    rw [sll_models_size hm.2, hm.1]
    omega

/-- C5: after any sequence of operations from construction (hence after
every enqueue and every successful dequeue), the chain of
`FifoQueueOfLinkedList` is doubly consistent: the forward traversal from
the head sentinel via `next` equals the reverse of the backward traversal
from the tail sentinel via `previous`, and every adjacent pair `a, b` of
the forward traversal satisfies `a.next = b` and `b.previous = a`. -/
theorem C5_dll_doubly_consistent {α : Type} (ops : List (QOp α)) :
    (FifoQueueOfLinkedList.run ops (FifoQueueOfLinkedList.init α)).1.consistent :=
  dll_models_consistent
    (dll_run_sim ops (FifoQueueOfLinkedList.init α) [] dll_models_init).2

/-- C6: `FifoQueueOfStacks.dequeue` follows exactly the algorithm stated
in the spec: with a non-empty output buffer it pops that buffer's top and
does not touch the input buffer; otherwise it moves the whole input
buffer onto the output buffer, reversing it exactly once, and pops the
new top (`dequeueSpec` is the transcription of the spec's words). -/
theorem C6_dequeue_algorithm {α : Type} (s : FifoQueueOfStacks α) :
    s.dequeue = s.dequeueSpec := by
  unfold FifoQueueOfStacks.dequeue FifoQueueOfStacks.dequeueSpec
  cases hout : s.output_stack with
  | nil => simp [drainLoop_eq, hout]
  | cons o os => simp [hout]

/-- C7 counterexample: `StackOfLinkedList` has NO tail sentinel.  Its
`__init__` allocates exactly one node — the head sentinel at index 0 —
and that node's `next` reference is `None`: the chain simply ends, with
no second sentinel node in the heap at construction. -/
theorem C7_sentinels_counterexample :
    (StackOfLinkedList.init Nat).store.length = 1 ∧
    StackOfLinkedList.nextOf (StackOfLinkedList.init Nat).store
      (StackOfLinkedList.init Nat).head = none ∧
    (StackOfLinkedList.init Nat).head = 0 :=
  ⟨rfl, rfl, rfl⟩

/-- C7 amended: `FifoQueueOfLinkedList` uses permanent head AND tail
sentinel nodes; `StackOfLinkedList` uses only a permanent head sentinel
(its `__init__` allocates exactly that one node, so there is no tail
sentinel and the chain ends with a `None` next reference).  In both
containers the sentinel nodes hold no payload, and after any sequence of
operations the `head`/`tail` attributes still point at the nodes
allocated by `__init__` (indices 1 and 0 for the queue, 0 for the
stack), which stay allocated.  (`size` is read-only in the embedding, so
it cannot remove them either.) -/
theorem C7_sentinels_permanent {α : Type} (qops : List (QOp α))
    (sops : List (SOp α)) :
    (StackOfLinkedList.init α).store.length = 1 ∧
    ((FifoQueueOfLinkedList.run qops (FifoQueueOfLinkedList.init α)).1.head = 1 ∧
      (FifoQueueOfLinkedList.run qops (FifoQueueOfLinkedList.init α)).1.tail = 0 ∧
      1 < (FifoQueueOfLinkedList.run qops
        (FifoQueueOfLinkedList.init α)).1.store.length ∧
      FifoQueueOfLinkedList.valueOf
        (FifoQueueOfLinkedList.run qops (FifoQueueOfLinkedList.init α)).1.store
        (FifoQueueOfLinkedList.run qops (FifoQueueOfLinkedList.init α)).1.head
        = none ∧
      FifoQueueOfLinkedList.valueOf
        (FifoQueueOfLinkedList.run qops (FifoQueueOfLinkedList.init α)).1.store
        (FifoQueueOfLinkedList.run qops (FifoQueueOfLinkedList.init α)).1.tail
        = none) ∧
    ((StackOfLinkedList.run sops (StackOfLinkedList.init α)).1.head = 0 ∧
      0 < (StackOfLinkedList.run sops (StackOfLinkedList.init α)).1.store.length ∧
      StackOfLinkedList.valueOf
        (StackOfLinkedList.run sops (StackOfLinkedList.init α)).1.store
        (StackOfLinkedList.run sops (StackOfLinkedList.init α)).1.head
        = none) := by
  have hht := dll_run_headtail qops (FifoQueueOfLinkedList.init α)
  have hm := (dll_run_sim qops (FifoQueueOfLinkedList.init α) []
    dll_models_init).2
  obtain ⟨is, _, _, hbd, _, hvh, hvt, _, _⟩ := hm
  have hh := sll_run_head sops (StackOfLinkedList.init α)
  have hms := (sll_run_sim sops (StackOfLinkedList.init α) []
    sll_models_init).2
  obtain ⟨is2, _, _, hbd2, _, hvh2, _⟩ := hms
  refine ⟨rfl, ⟨?_, ?_, ?_, hvh, hvt⟩, ⟨?_, ?_, hvh2⟩⟩
  · exact hht.1
  · exact hht.2
  · have := hbd _ (List.mem_cons_self _ _)
    rw [hht.1] at this
    exact this
  · exact hh
  · have := hbd2 _ (List.mem_cons_self _ _)
    rw [hh] at this
    exact this

/-- C8: after any sequence of public operations (so after every push and
every successful pop) the `StackOfQueues` state is fully rotated back:
the output queue is empty and the input queue holds exactly the live
elements in their original push order (oldest first). -/
theorem C8_rotation_invariant {α : Type} (sops : List (SOp α)) :
    (StackOfQueues.run sops (StackOfQueues.init α)).1.output_queue = [] ∧
    (StackOfQueues.run sops (StackOfQueues.init α)).1.input_queue
      = (refSRun sops []).1.reverse := by
  have h := (soq_run_sim sops (StackOfQueues.init α) [] soq_models_init).2
  exact ⟨h.1, h.2⟩

/-- C9: when a reachable `StackOfQueues` state holds exactly one element,
that element sits alone in the input queue, both rotation loops perform
zero iterations (they leave the buffers exactly as they are), and pop
returns the element directly, leaving both buffers empty. -/
theorem C9_single_element_pop {α : Type} (sops : List (SOp α))
    (h : (StackOfQueues.run sops (StackOfQueues.init α)).1.size = 1) :
    ∃ x : α,
      (StackOfQueues.run sops (StackOfQueues.init α)).1.input_queue = [x] ∧
      (StackOfQueues.run sops (StackOfQueues.init α)).1.output_queue = [] ∧
      StackOfQueues.popLoop1
        (StackOfQueues.run sops (StackOfQueues.init α)).1.input_queue
        (StackOfQueues.run sops (StackOfQueues.init α)).1.output_queue
        = ((StackOfQueues.run sops (StackOfQueues.init α)).1.input_queue,
          (StackOfQueues.run sops (StackOfQueues.init α)).1.output_queue) ∧
      StackOfQueues.popLoop2
        (StackOfQueues.run sops (StackOfQueues.init α)).1.input_queue
        (StackOfQueues.run sops (StackOfQueues.init α)).1.output_queue
        = ((StackOfQueues.run sops (StackOfQueues.init α)).1.input_queue,
          (StackOfQueues.run sops (StackOfQueues.init α)).1.output_queue) ∧
      (StackOfQueues.run sops (StackOfQueues.init α)).1.pop
        = (Except.ok x, ⟨[], []⟩) := by
  have hm := (soq_run_sim sops (StackOfQueues.init α) [] soq_models_init).2
  rw [soq_size_models hm] at h
  obtain ⟨x, hx⟩ := List.length_eq_one.mp h
  rw [hx] at hm
  obtain ⟨ho, hi⟩ := hm
  have hi2 : (StackOfQueues.run sops (StackOfQueues.init α)).1.input_queue
      = [x] := by rw [hi]; rfl
  have hpop := soq_pop_of_cons (x := x) (l := []) ⟨ho, hi⟩
  refine ⟨x, hi2, ho, ?_, ?_, ?_⟩
  · rw [hi2, ho]; rfl
  · rw [hi2, ho]; rfl
  · rw [hpop]; rfl

/-- C9 witness: after a single push the stack has size one and pop
behaves as stated. -/
theorem C9_single_element_pop_witness :
    (StackOfQueues.run [SOp.push 7] (StackOfQueues.init Nat)).1.size = 1 ∧
    (∃ x : Nat,
      (StackOfQueues.run [SOp.push 7] (StackOfQueues.init Nat)).1.input_queue
        = [x] ∧
      (StackOfQueues.run [SOp.push 7]
        (StackOfQueues.init Nat)).1.output_queue = [] ∧
      StackOfQueues.popLoop1
        (StackOfQueues.run [SOp.push 7] (StackOfQueues.init Nat)).1.input_queue
        (StackOfQueues.run [SOp.push 7] (StackOfQueues.init Nat)).1.output_queue
        = ((StackOfQueues.run [SOp.push 7]
            (StackOfQueues.init Nat)).1.input_queue,
          (StackOfQueues.run [SOp.push 7]
            (StackOfQueues.init Nat)).1.output_queue) ∧
      StackOfQueues.popLoop2
        (StackOfQueues.run [SOp.push 7] (StackOfQueues.init Nat)).1.input_queue
        (StackOfQueues.run [SOp.push 7] (StackOfQueues.init Nat)).1.output_queue
        = ((StackOfQueues.run [SOp.push 7]
            (StackOfQueues.init Nat)).1.input_queue,
          (StackOfQueues.run [SOp.push 7]
            (StackOfQueues.init Nat)).1.output_queue) ∧
      (StackOfQueues.run [SOp.push 7] (StackOfQueues.init Nat)).1.pop
        = (Except.ok x, ⟨[], []⟩)) :=
  ⟨rfl, C9_single_element_pop [SOp.push 7] rfl⟩

/-- C10: for every reachable state of each of the four containers, a
removal attempted while the container holds zero elements fails with an
error and leaves the state exactly unchanged. -/
theorem C10_empty_removal_atomic {α : Type} (qops : List (QOp α))
    (sops : List (SOp α)) :
    ((FifoQueueOfStacks.run qops (FifoQueueOfStacks.init α)).1.size = 0 →
      ∃ e, (FifoQueueOfStacks.run qops (FifoQueueOfStacks.init α)).1.dequeue
        = (Except.error e,
          (FifoQueueOfStacks.run qops (FifoQueueOfStacks.init α)).1)) ∧
    ((StackOfQueues.run sops (StackOfQueues.init α)).1.size = 0 →
      ∃ e, (StackOfQueues.run sops (StackOfQueues.init α)).1.pop
        = (Except.error e,
          (StackOfQueues.run sops (StackOfQueues.init α)).1)) ∧
    ((FifoQueueOfLinkedList.run qops
        (FifoQueueOfLinkedList.init α)).1.size = 0 →
      ∃ e, (FifoQueueOfLinkedList.run qops
          (FifoQueueOfLinkedList.init α)).1.dequeue
        = (Except.error e,
          (FifoQueueOfLinkedList.run qops
            (FifoQueueOfLinkedList.init α)).1)) ∧
    ((StackOfLinkedList.run sops (StackOfLinkedList.init α)).1.size = 0 →
      ∃ e, (StackOfLinkedList.run sops (StackOfLinkedList.init α)).1.pop
        = (Except.error e,
          (StackOfLinkedList.run sops (StackOfLinkedList.init α)).1)) := by
  refine ⟨?_, ?_, ?_, ?_⟩
  · intro h
    have hs := fqs_run_sim qops (FifoQueueOfStacks.init α)
    have hc : (FifoQueueOfStacks.init α).contents = [] := rfl
    rw [hc] at hs
    rw [fqs_size_contents] at h
    exact ⟨Err.indexError, fqs_dequeue_of_empty (List.length_eq_zero.mp h)⟩
  · intro h
    have hm := (soq_run_sim sops _ [] soq_models_init).2
    rw [soq_size_models hm] at h
    rw [List.length_eq_zero.mp h] at hm
    exact ⟨Err.queueEmpty, soq_pop_of_empty hm⟩
  · intro h
    have hm := (dll_run_sim qops _ [] dll_models_init).2
    rw [dll_models_size hm] at h
    rw [List.length_eq_zero.mp h] at hm
    exact ⟨Err.nameError, dll_models_dequeue_nil hm⟩
  · intro h
    have hm := (sll_run_sim sops _ [] sll_models_init).2
    rw [sll_models_size hm] at h
    rw [List.length_eq_zero.mp h] at hm
    exact ⟨Err.nameError, sll_models_pop_nil hm⟩

/-- C10 witness: on the freshly constructed containers all four size
hypotheses hold and the failed removals leave the states unchanged. -/
theorem C10_empty_removal_atomic_witness :
    ((FifoQueueOfStacks.run ([] : List (QOp Nat))
        (FifoQueueOfStacks.init Nat)).1.size = 0 ∧
      (StackOfQueues.run ([] : List (SOp Nat))
        (StackOfQueues.init Nat)).1.size = 0 ∧
      (FifoQueueOfLinkedList.run ([] : List (QOp Nat))
        (FifoQueueOfLinkedList.init Nat)).1.size = 0 ∧
      (StackOfLinkedList.run ([] : List (SOp Nat))
        (StackOfLinkedList.init Nat)).1.size = 0) ∧
    (∃ e, (FifoQueueOfStacks.run ([] : List (QOp Nat))
        (FifoQueueOfStacks.init Nat)).1.dequeue
      = (Except.error e, (FifoQueueOfStacks.run ([] : List (QOp Nat))
          (FifoQueueOfStacks.init Nat)).1)) ∧
    (∃ e, (StackOfQueues.run ([] : List (SOp Nat))
        (StackOfQueues.init Nat)).1.pop
      = (Except.error e, (StackOfQueues.run ([] : List (SOp Nat))
          (StackOfQueues.init Nat)).1)) ∧
    (∃ e, (FifoQueueOfLinkedList.run ([] : List (QOp Nat))
        (FifoQueueOfLinkedList.init Nat)).1.dequeue
      = (Except.error e, (FifoQueueOfLinkedList.run ([] : List (QOp Nat))
          (FifoQueueOfLinkedList.init Nat)).1)) ∧
    (∃ e, (StackOfLinkedList.run ([] : List (SOp Nat))
        (StackOfLinkedList.init Nat)).1.pop
      = (Except.error e, (StackOfLinkedList.run ([] : List (SOp Nat))
          (StackOfLinkedList.init Nat)).1)) :=
  ⟨⟨rfl, rfl, rfl, rfl⟩,
    (C10_empty_removal_atomic [] []).1 rfl,
    (C10_empty_removal_atomic [] []).2.1 rfl,
    (C10_empty_removal_atomic [] []).2.2.1 rfl,
    (C10_empty_removal_atomic [] []).2.2.2 rfl⟩
